import Mathlib

/-!
Verification of the hypnotoad mesh-generator core against its specification.

The Python source is shallowly embedded: floating-point numbers become real
numbers (or elements of an arbitrary linear ordered field, where the code only
uses field arithmetic and comparisons, so that concrete evaluation is possible
over the rationals), numpy arrays become lists or functions, mutable objects
become explicit state-passing on structures, and Python exceptions become
Except/Option results.
-/

namespace Hypnotoad

/-- Point2D from equilibrium.py: an (R, Z) pair.  Polymorphic in the scalar
type so that the intersection / refinement algorithms can be evaluated over ℚ
as well as stated over ℝ. -/
structure Point2D (α : Type) where
  R : α
  Z : α
deriving DecidableEq, Repr

/-! ### FineContour state and reverse (claim C7)

Embeds the mutable state of `FineContour` that `reverse()` touches:
`positions` (the [N,2] array, as a list of pairs), `distance` (cumulative
arclength array, as a list), `startInd` and `endInd` (Python ints).  The
`calcDistance` method always writes `distance[0] = 0` (the array is zeroed and
only `distance[1:]` receives the cumulative sum), which is the only fact about
computed distance arrays the round-trip needs. -/
structure FineContour where
  positions : List (ℝ × ℝ)
  distance : List ℝ
  startInd : ℤ
  endInd : ℤ

/-- FineContour.reverse from equilibrium.py lines 656-664:
`distance = distance[-1] - distance[::-1]`, `positions = positions[::-1]`,
`startInd = n - 1 - endInd`, `endInd = n - 1 - old_start` where
`n = positions.shape[0]`. -/
def FineContour.reverse (fc : FineContour) : FineContour where
  positions := fc.positions.reverse
  distance := fc.distance.reverse.map (fun x => fc.distance.getLastD 0 - x)
  startInd := (fc.positions.length : ℤ) - 1 - fc.endInd
  endInd := (fc.positions.length : ℤ) - 1 - fc.startInd

/-! ### PsiContour mutable state and its mutators (claim C8)

Embeds the attributes of `PsiContour` relevant to the cache-invalidation rule:
the point list, `_startInd`, `_endInd`, the cached `_fine_contour` and
`_distance` (both `Option`al), and `_extend_lower`, `_extend_upper`.  Each
Python property setter and each mutating method becomes a function from state
to state. -/
structure PsiContour where
  points : List (Point2D ℝ)
  startInd : ℤ
  endInd : ℤ
  fine_contour : Option FineContour
  distanceCache : Option (List ℝ)
  extend_lower : ℤ
  extend_upper : ℤ

/-- The startInd property setter (equilibrium.py lines 796-802): when the
value changes, clear both `_fine_contour` and `_distance`. -/
def PsiContour.setStartInd (c : PsiContour) (val : ℤ) : PsiContour :=
  if c.startInd = val then c
  else { c with fine_contour := none, distanceCache := none, startInd := val }

/-- The endInd property setter (equilibrium.py lines 808-814): when the value
changes, clear both `_fine_contour` and `_distance`. -/
def PsiContour.setEndInd (c : PsiContour) (val : ℤ) : PsiContour :=
  if c.endInd = val then c
  else { c with fine_contour := none, distanceCache := none, endInd := val }

/-- The extend_lower property setter (equilibrium.py lines 820-826): when the
value changes, clear `_fine_contour` only (the `_distance` cache is not
touched by this setter in the source). -/
def PsiContour.setExtendLower (c : PsiContour) (val : ℤ) : PsiContour :=
  if c.extend_lower = val then c
  else { c with fine_contour := none, extend_lower := val }

/-- The extend_upper property setter (equilibrium.py lines 832-838): when the
value changes, clear `_fine_contour` only (the `_distance` cache is not
touched by this setter in the source). -/
def PsiContour.setExtendUpper (c : PsiContour) (val : ℤ) : PsiContour :=
  if c.extend_upper = val then c
  else { c with fine_contour := none, extend_upper := val }

/-- PsiContour.append (equilibrium.py lines 894-897): clears both caches and
appends the point. -/
def PsiContour.append (c : PsiContour) (p : Point2D ℝ) : PsiContour :=
  { c with fine_contour := none, distanceCache := none, points := c.points ++ [p] }

/-- PsiContour.prepend (equilibrium.py lines 899-902): clears both caches and
inserts the point at the front. -/
def PsiContour.prepend (c : PsiContour) (p : Point2D ℝ) : PsiContour :=
  { c with fine_contour := none, distanceCache := none, points := p :: c.points }

/-- Python list.insert semantics for a non-negative index: insert before the
given position, appending when the index is past the end. -/
def pyListInsert {β : Type} (l : List β) (i : ℤ) (x : β) : List β :=
  l.take i.toNat ++ x :: l.drop i.toNat

/-- The `if index <= self.startInd: self.startInd += 1` step of
PsiContour.insert; the increment goes through the startInd property setter. -/
def PsiContour.insertShiftStart (c : PsiContour) (idx : ℤ) : PsiContour :=
  if idx ≤ c.startInd then c.setStartInd (c.startInd + 1) else c

/-- The `if index <= self.endInd: self.endInd += 1` step of
PsiContour.insert; the increment goes through the endInd property setter. -/
def PsiContour.insertShiftEnd (c : PsiContour) (idx : ℤ) : PsiContour :=
  if idx ≤ c.endInd then c.setEndInd (c.endInd + 1) else c

/-- The `if self.endInd < 0 and index > len(self) + self.endInd:
self.endInd -= 1` step of PsiContour.insert (the length is taken after the
point was inserted). -/
def PsiContour.insertShiftEndNeg (c : PsiContour) (idx : ℤ) : PsiContour :=
  if c.endInd < 0 ∧ idx > (c.points.length : ℤ) + c.endInd then
    c.setEndInd (c.endInd - 1)
  else c

/-- PsiContour.insert (equilibrium.py lines 904-920).  Sets `_distance` to
None directly, normalises a negative index the way list.insert does, inserts
the point, then shifts `startInd` / `endInd` through their property setters
(`self.startInd += 1` invokes the setter, so those shifts do clear the
caches); a direct insertion past `endInd` goes through no setter. -/
def PsiContour.insert (c : PsiContour) (index : ℤ) (point : Point2D ℝ) : PsiContour :=
  let idx := if index < 0 then
      (if index + (c.points.length : ℤ) < 0 then 0 else index + (c.points.length : ℤ))
    else index
  let c2 : PsiContour :=
    { c with distanceCache := none, points := pyListInsert c.points idx point }
  (((c2.insertShiftStart idx).insertShiftEnd idx).insertShiftEndNeg idx)

/-! ### Theorems for claim C7 -/

/-- Helper: the last element of a computed distance list after one reversal is
the original last element minus the original head. -/
lemma reverse_distance_getLastD (d : List ℝ) (h : d ≠ []) :
    (d.reverse.map (fun x => d.getLastD 0 - x)).getLastD 0
      = d.getLastD 0 - d.headD 0 := by
  cases d with
  | nil => simp at h
  | cons a l =>
    rw [List.reverse_cons, List.map_append]
    simp

/-- C7: reversing a FineContour twice restores positions, distance, startInd
and endInd exactly.  The only hypothesis is that the distance array was
computed (its first entry is 0, as `calcDistance` guarantees). -/
theorem fineContour_reverse_reverse (fc : FineContour)
    (h0 : fc.distance.headD 0 = 0) (hne : fc.distance ≠ []) :
    fc.reverse.reverse = fc := by
  obtain ⟨pos, d, s, e⟩ := fc
  simp only [FineContour.reverse, FineContour.mk.injEq, List.reverse_reverse,
    List.length_reverse]
  refine ⟨trivial, ?_, by ring, by ring⟩
  have hlast : ((d.reverse.map (fun x => d.getLastD 0 - x)).getLastD 0)
      = d.getLastD 0 := by
    rw [reverse_distance_getLastD d hne]
    simp only at h0
    rw [h0, sub_zero]
  rw [hlast, ← List.map_reverse, List.reverse_reverse, List.map_map]
  have hcomp : ((fun x => d.getLastD 0 - x) ∘ fun x => d.getLastD 0 - x)
      = (id : ℝ → ℝ) := by
    funext x
    simp
  rw [hcomp, List.map_id]

/-- Witness for C7 at a concrete FineContour. -/
theorem fineContour_reverse_reverse_witness :
    (FineContour.mk [(0, 0), (1, 0)] [0, 1] 0 1).distance.headD 0 = 0 ∧
      (FineContour.mk [(0, 0), (1, 0)] [0, 1] 0 1).distance ≠ [] ∧
      (FineContour.mk [(0, 0), (1, 0)] [0, 1] 0 1).reverse.reverse
        = FineContour.mk [(0, 0), (1, 0)] [0, 1] 0 1 :=
  ⟨rfl, by simp, fineContour_reverse_reverse _ rfl (by simp)⟩

/-! ### Theorems for claim C8 -/

/-- Helper: the startInd setter preserves an already-cleared distance cache. -/
lemma PsiContour.setStartInd_distanceCache_of_none {c : PsiContour} (v : ℤ)
    (h : c.distanceCache = none) : (c.setStartInd v).distanceCache = none := by
  unfold PsiContour.setStartInd
  split
  · exact h
  · rfl

/-- Helper: the endInd setter preserves an already-cleared distance cache. -/
lemma PsiContour.setEndInd_distanceCache_of_none {c : PsiContour} (v : ℤ)
    (h : c.distanceCache = none) : (c.setEndInd v).distanceCache = none := by
  unfold PsiContour.setEndInd
  split
  · exact h
  · rfl

/-- Helper: each index-shifting step of insert preserves an already-cleared
distance cache. -/
lemma PsiContour.insertShifts_distanceCache_of_none {c : PsiContour} (idx : ℤ)
    (h : c.distanceCache = none) :
    (c.insertShiftStart idx).distanceCache = none ∧
      (c.insertShiftEnd idx).distanceCache = none ∧
      (c.insertShiftEndNeg idx).distanceCache = none := by
  unfold PsiContour.insertShiftStart PsiContour.insertShiftEnd
    PsiContour.insertShiftEndNeg
  refine ⟨?_, ?_, ?_⟩ <;> split
  · exact PsiContour.setStartInd_distanceCache_of_none _ h
  · exact h
  · exact PsiContour.setEndInd_distanceCache_of_none _ h
  · exact h
  · exact PsiContour.setEndInd_distanceCache_of_none _ h
  · exact h

/-- Helper: PsiContour.insert always clears the distance cache. -/
lemma PsiContour.insert_distanceCache (c : PsiContour) (i : ℤ) (p : Point2D ℝ) :
    (c.insert i p).distanceCache = none := by
  simp only [PsiContour.insert]
  refine (PsiContour.insertShifts_distanceCache_of_none _ ?_).2.2
  refine (PsiContour.insertShifts_distanceCache_of_none _ ?_).2.1
  exact (PsiContour.insertShifts_distanceCache_of_none _ rfl).1

/-- A concrete PsiContour state with both caches populated, startInd 0 and
endInd 2, used to exhibit mutations that do not clear a cache. -/
def exampleContour : PsiContour :=
  { points := [⟨0, 0⟩, ⟨1, 0⟩, ⟨2, 0⟩]
    startInd := 0
    endInd := 2
    fine_contour := some ⟨[(0, 0)], [0], 0, 0⟩
    distanceCache := some [0, 1, 2]
    extend_lower := 0
    extend_upper := 0 }

/-- C8 counterexample: two mutations covered by the claim leave a cache in
place.  Setting extend_lower from 0 to 1 clears only the FineContour cache and
keeps the distance cache; inserting a point at index 3 (past endInd = 2)
clears the distance cache but keeps the cached FineContour. -/
theorem psiContour_invalidation_counterexample :
    (exampleContour.setExtendLower 1).extend_lower = 1 ∧
      exampleContour.extend_lower = 0 ∧
      (exampleContour.setExtendLower 1).distanceCache = some [0, 1, 2] ∧
      (exampleContour.insert 3 ⟨3, 0⟩).distanceCache = none ∧
      (exampleContour.insert 3 ⟨3, 0⟩).fine_contour = some ⟨[(0, 0)], [0], 0, 0⟩ :=
  ⟨rfl, rfl, rfl, rfl, rfl⟩

/-- C8 amended: startInd / endInd changes, prepends and appends clear both
caches; extend_lower / extend_upper changes clear only the cached FineContour
and leave the cached distance list untouched; insert always clears the
cached distance list (and clears the FineContour cache only when it shifts
startInd or endInd through their setters). -/
theorem psiContour_cache_invalidation (c : PsiContour) (v i : ℤ) (p : Point2D ℝ) :
    ((c.setStartInd v).fine_contour
        = if c.startInd = v then c.fine_contour else none) ∧
      ((c.setStartInd v).distanceCache
        = if c.startInd = v then c.distanceCache else none) ∧
      ((c.setEndInd v).fine_contour
        = if c.endInd = v then c.fine_contour else none) ∧
      ((c.setEndInd v).distanceCache
        = if c.endInd = v then c.distanceCache else none) ∧
      ((c.setExtendLower v).fine_contour
        = if c.extend_lower = v then c.fine_contour else none) ∧
      ((c.setExtendLower v).distanceCache = c.distanceCache) ∧
      ((c.setExtendUpper v).fine_contour
        = if c.extend_upper = v then c.fine_contour else none) ∧
      ((c.setExtendUpper v).distanceCache = c.distanceCache) ∧
      ((c.append p).fine_contour = none) ∧
      ((c.append p).distanceCache = none) ∧
      ((c.prepend p).fine_contour = none) ∧
      ((c.prepend p).distanceCache = none) ∧
      ((c.insert i p).distanceCache = none) := by
  refine ⟨?_, ?_, ?_, ?_, ?_, ?_, ?_, ?_, rfl, rfl, rfl, rfl,
    c.insert_distanceCache i p⟩
  all_goals
    simp only [PsiContour.setStartInd, PsiContour.setEndInd, PsiContour.setExtendLower,
      PsiContour.setExtendUpper]
  all_goals split <;> simp_all

/-! ### MeshRegion arrays and getRZBoundary (claim C5)

Embeds the per-region arrays touched by `MeshRegion.getRZBoundary`
(mesh.py lines 670-686): `Rxy.ylow`, `Zxy.ylow`, `Rxy.corners`,
`Zxy.corners`, each with `ny + 1` y-columns so that column index `ny` is the
numpy index `-1`.  The mesh state maps each region id to its arrays, its
`ny`, and its upper connection. -/
structure RegionArrays where
  RxyYlow : ℕ → ℕ → ℝ
  ZxyYlow : ℕ → ℕ → ℝ
  RxyCorners : ℕ → ℕ → ℝ
  ZxyCorners : ℕ → ℕ → ℝ

/-- The assignment block of getRZBoundary: the region adopts its upper
neighbour's column 0 into its own last column (numpy `[:, -1]`), for all four
arrays. -/
def RegionArrays.adoptUpper (a up : RegionArrays) (lastCol : ℕ) : RegionArrays where
  RxyYlow := fun i j => if j = lastCol then up.RxyYlow i 0 else a.RxyYlow i j
  ZxyYlow := fun i j => if j = lastCol then up.ZxyYlow i 0 else a.ZxyYlow i j
  RxyCorners := fun i j => if j = lastCol then up.RxyCorners i 0 else a.RxyCorners i j
  ZxyCorners := fun i j => if j = lastCol then up.ZxyCorners i 0 else a.ZxyCorners i j

/-- State of all mesh regions after fillRZ: arrays, ny and the upper
connection per region. -/
structure MeshState (RegionId : Type) where
  arrays : RegionId → RegionArrays
  ny : RegionId → ℕ
  upper : RegionId → Option RegionId

/-- MeshRegion.getRZBoundary (mesh.py lines 670-686) as a state transformer
acting on region `r`: when `connections[upper]` is not None, the four
boundary assignments are performed; otherwise nothing happens. -/
def MeshState.getRZBoundary {RegionId : Type} [DecidableEq RegionId]
    (s : MeshState RegionId) (r : RegionId) : MeshState RegionId :=
  match s.upper r with
  | none => s
  | some u =>
    { s with
      arrays := fun q =>
        if q = r then (s.arrays r).adoptUpper (s.arrays u) (s.ny r) else s.arrays q }

/-- Calling getRZBoundary on every region of a list, in order. -/
def MeshState.runBoundary {RegionId : Type} [DecidableEq RegionId]
    (s : MeshState RegionId) (order : List RegionId) : MeshState RegionId :=
  order.foldl MeshState.getRZBoundary s

/-! ### Theorems for claim C5 -/

section RZBoundary

variable {RegionId : Type} [DecidableEq RegionId]

/-- Helper: getRZBoundary never changes ny or upper. -/
lemma getRZBoundary_ny_upper (s : MeshState RegionId) (r : RegionId) :
    (s.getRZBoundary r).ny = s.ny ∧ (s.getRZBoundary r).upper = s.upper := by
  unfold MeshState.getRZBoundary
  cases s.upper r <;> simp

/-- Helper: column 0 of every array of every region is never written by a
getRZBoundary step, provided every region has at least one y-cell (so that
the last column index ny is not 0). -/
lemma getRZBoundary_col0 (s : MeshState RegionId) (r' q : RegionId)
    (hny : ∀ t, 0 < s.ny t) (i : ℕ) :
    (((s.getRZBoundary r').arrays q).RxyYlow i 0 = (s.arrays q).RxyYlow i 0) ∧
      (((s.getRZBoundary r').arrays q).ZxyYlow i 0 = (s.arrays q).ZxyYlow i 0) ∧
      (((s.getRZBoundary r').arrays q).RxyCorners i 0 = (s.arrays q).RxyCorners i 0) ∧
      (((s.getRZBoundary r').arrays q).ZxyCorners i 0 = (s.arrays q).ZxyCorners i 0) := by
  unfold MeshState.getRZBoundary
  cases hu : s.upper r' with
  | none => simp
  | some u =>
    by_cases hq : q = r'
    · subst hq
      simp [RegionArrays.adoptUpper, (hny q).ne]
    · simp [hq]

/-- Helper: column 0 is unchanged by a whole sequence of getRZBoundary calls. -/
lemma runBoundary_col0 (order : List RegionId) (s : MeshState RegionId)
    (q : RegionId) (hny : ∀ t, 0 < s.ny t) (i : ℕ) :
    (((s.runBoundary order).arrays q).RxyYlow i 0 = (s.arrays q).RxyYlow i 0) ∧
      (((s.runBoundary order).arrays q).ZxyYlow i 0 = (s.arrays q).ZxyYlow i 0) ∧
      (((s.runBoundary order).arrays q).RxyCorners i 0
        = (s.arrays q).RxyCorners i 0) ∧
      (((s.runBoundary order).arrays q).ZxyCorners i 0
        = (s.arrays q).ZxyCorners i 0) := by
  induction order generalizing s with
  | nil => exact ⟨rfl, rfl, rfl, rfl⟩
  | cons a rest ih =>
    have hstep := getRZBoundary_col0 s a q hny i
    have hny' : ∀ t, 0 < (s.getRZBoundary a).ny t := by
      intro t
      rw [(getRZBoundary_ny_upper s a).1]
      exact hny t
    have hrun := ih (s.getRZBoundary a) hny'
    exact ⟨hrun.1.trans hstep.1, hrun.2.1.trans hstep.2.1,
      hrun.2.2.1.trans hstep.2.2.1, hrun.2.2.2.trans hstep.2.2.2⟩

/-- Helper: a region not in the processed list keeps its arrays unchanged. -/
lemma runBoundary_arrays_of_not_mem (order : List RegionId) (s : MeshState RegionId)
    (r : RegionId) (hr : r ∉ order) :
    (s.runBoundary order).arrays r = s.arrays r := by
  induction order generalizing s with
  | nil => rfl
  | cons a rest ih =>
    have hne : r ≠ a := fun h => hr (h ▸ List.mem_cons_self a rest)
    have hstep : (s.getRZBoundary a).arrays r = s.arrays r := by
      unfold MeshState.getRZBoundary
      cases s.upper a <;> simp [hne]
    have := ih (s.getRZBoundary a) (fun h => hr (List.mem_cons_of_mem a h))
    exact this.trans hstep

/-- Helper: immediately after getRZBoundary processes region r (with upper
neighbour u), r's last ylow/corner column holds u's column 0. -/
lemma getRZBoundary_lastCol (s : MeshState RegionId) (r u : RegionId)
    (hu : s.upper r = some u) (i : ℕ) :
    (((s.getRZBoundary r).arrays r).RxyYlow i (s.ny r)
        = (s.arrays u).RxyYlow i 0) ∧
      (((s.getRZBoundary r).arrays r).ZxyYlow i (s.ny r)
        = (s.arrays u).ZxyYlow i 0) ∧
      (((s.getRZBoundary r).arrays r).RxyCorners i (s.ny r)
        = (s.arrays u).RxyCorners i 0) ∧
      (((s.getRZBoundary r).arrays r).ZxyCorners i (s.ny r)
        = (s.arrays u).ZxyCorners i 0) := by
  unfold MeshState.getRZBoundary
  rw [hu]
  simp [RegionArrays.adoptUpper]

/-- C5: after getRZBoundary has been called on every region (in any order
covering all regions, after fillRZ filled the arrays), any region r with an
upper neighbour u has its final ylow / corners column (numpy index -1, here
index ny) equal, value by value, to u's column 0 — for all four arrays
Rxy.ylow, Zxy.ylow, Rxy.corners, Zxy.corners.  The copies are direct
assignments, so the agreement is bit-exact. -/
theorem getRZBoundary_shared_face (s : MeshState RegionId)
    (order : List RegionId) (r u : RegionId) (i : ℕ)
    (hny : ∀ t, 0 < s.ny t) (hmem : r ∈ order) (hu : s.upper r = some u) :
    (((s.runBoundary order).arrays r).RxyYlow i (s.ny r)
        = ((s.runBoundary order).arrays u).RxyYlow i 0) ∧
      (((s.runBoundary order).arrays r).ZxyYlow i (s.ny r)
        = ((s.runBoundary order).arrays u).ZxyYlow i 0) ∧
      (((s.runBoundary order).arrays r).RxyCorners i (s.ny r)
        = ((s.runBoundary order).arrays u).RxyCorners i 0) ∧
      (((s.runBoundary order).arrays r).ZxyCorners i (s.ny r)
        = ((s.runBoundary order).arrays u).ZxyCorners i 0) := by
  induction order generalizing s with
  | nil => exact absurd hmem (List.not_mem_nil r)
  | cons a rest ih =>
    have hny' : ∀ t, 0 < (s.getRZBoundary a).ny t := by
      intro t
      rw [(getRZBoundary_ny_upper s a).1]
      exact hny t
    have hu' : (s.getRZBoundary a).upper r = some u := by
      rw [(getRZBoundary_ny_upper s a).2]
      exact hu
    by_cases hrest : r ∈ rest
    · have := ih (s.getRZBoundary a) hny' hrest hu'
      rwa [show (s.getRZBoundary a).ny r = s.ny r from
        congrFun (getRZBoundary_ny_upper s a).1 r] at this
    · have hra : r = a := by
        rcases List.mem_cons.mp hmem with h | h
        · exact h
        · exact absurd h hrest
      subst hra
      have harr : ((s.getRZBoundary r).runBoundary rest).arrays r
          = (s.getRZBoundary r).arrays r :=
        runBoundary_arrays_of_not_mem rest _ r hrest
      have hcol0 := runBoundary_col0 rest (s.getRZBoundary r) u hny' i
      have hstep0 := getRZBoundary_col0 s r u hny i
      have hlast := getRZBoundary_lastCol s r u hu i
      have hfold : s.runBoundary (r :: rest) = (s.getRZBoundary r).runBoundary rest :=
        rfl
      rw [hfold, harr]
      exact ⟨by rw [hcol0.1, hstep0.1, hlast.1],
        by rw [hcol0.2.1, hstep0.2.1, hlast.2.1],
        by rw [hcol0.2.2.1, hstep0.2.2.1, hlast.2.2.1],
        by rw [hcol0.2.2.2, hstep0.2.2.2, hlast.2.2.2]⟩

end RZBoundary

/-- A concrete two-region mesh state: region `true` has upper neighbour
`false`; all arrays are filled with zeros and every region has ny = 1. -/
def exampleMesh : MeshState Bool where
  arrays := fun _ =>
    ⟨fun _ _ => 0, fun _ _ => 0, fun _ _ => 0, fun _ _ => 0⟩
  ny := fun _ => 1
  upper := fun r => if r then some false else none

/-- Witness for C5 at the concrete two-region mesh. -/
theorem getRZBoundary_shared_face_witness :
    (∀ t, 0 < exampleMesh.ny t) ∧ (true ∈ [true, false]) ∧
      exampleMesh.upper true = some false ∧
      ((((exampleMesh.runBoundary [true, false]).arrays true).RxyYlow 0
            (exampleMesh.ny true)
          = ((exampleMesh.runBoundary [true, false]).arrays false).RxyYlow 0 0) ∧
        (((exampleMesh.runBoundary [true, false]).arrays true).ZxyYlow 0
            (exampleMesh.ny true)
          = ((exampleMesh.runBoundary [true, false]).arrays false).ZxyYlow 0 0) ∧
        (((exampleMesh.runBoundary [true, false]).arrays true).RxyCorners 0
            (exampleMesh.ny true)
          = ((exampleMesh.runBoundary [true, false]).arrays false).RxyCorners 0 0) ∧
        (((exampleMesh.runBoundary [true, false]).arrays true).ZxyCorners 0
            (exampleMesh.ny true)
          = ((exampleMesh.runBoundary [true, false]).arrays false).ZxyCorners 0 0)) :=
  ⟨fun _ => one_pos, by simp, rfl,
    getRZBoundary_shared_face exampleMesh [true, false] true false 0
      (fun _ => one_pos) (by simp) rfl⟩

/-! ### MeshRegion.calcMetric Jacobian check (claim C2)

Embeds the per-gridpoint metric computation of mesh.py lines 788-832, in the
shifted-metric branch where the integrated shear I is the zero array.  A
MetricPoint carries the values of Rxy, Bpxy, hy, dphidy at one grid location
together with the region's bpsign. -/
structure MetricPoint (α : Type) where
  Rxy : α
  Bpxy : α
  hy : α
  dphidy : α
  bpsign : α

section Metric

variable {α : Type} [LinearOrderedField α]

/-- The integrated shear in the shiftedmetric branch: `self.I` is the zero
array (mesh.py line 795). -/
def Ishift : α := 0

/-- g11 = (Rxy*Bpxy)**2 (mesh.py line 802). -/
def g11 (m : MetricPoint α) : α := (m.Rxy * m.Bpxy) ^ 2

/-- g22 = 1/hy**2 (mesh.py line 803). -/
def g22 (m : MetricPoint α) : α := 1 / m.hy ^ 2

/-- g33 = I*g11 + (dphidy/hy)**2 + 1/Rxy**2 (mesh.py line 804). -/
def g33 (m : MetricPoint α) : α :=
  Ishift * g11 m + (m.dphidy / m.hy) ^ 2 + 1 / m.Rxy ^ 2

/-- g12 = 0 (mesh.py line 805). -/
def g12 (_ : MetricPoint α) : α := 0

/-- g13 = -I*g11 (mesh.py line 806). -/
def g13 (m : MetricPoint α) : α := -(Ishift * g11 m)

/-- g23 = -dphidy/hy**2 (mesh.py line 807). -/
def g23 (m : MetricPoint α) : α := -(m.dphidy / m.hy ^ 2)

/-- J = hy / Bpxy (mesh.py line 809). -/
def Jmetric (m : MetricPoint α) : α := m.hy / m.Bpxy

/-- The contravariant metric determinant appearing under the square root of
the code's Jacobian check (mesh.py lines 819-821). -/
def detMetric (m : MetricPoint α) : α :=
  g11 m * g22 m * g33 m + 2 * g12 m * g13 m * g23 m - g11 m * g23 m ^ 2
    - g22 m * g13 m ^ 2 - g33 m * g12 m ^ 2

/-- Jcheck = bpsign*1./sqrt(det) as computed by the source (mesh.py line
819): the code includes the bpsign factor.  The square root (numpy.sqrt, an
external library function) is a parameter, instantiated with Real.sqrt in
the theorems. -/
def JcheckCode (sqrtF : α → α) (m : MetricPoint α) : α :=
  m.bpsign * 1 / sqrtF (detMetric m)

/-- The check the source asserts at every non-X-point location (mesh.py
lines 832 and 876-879). -/
def jacobianCheckCode (sqrtF : α → α) (m : MetricPoint α) (rtol : α) : Prop :=
  |Jmetric m - JcheckCode sqrtF m| / |Jmetric m| < rtol

/-- The check as worded by the SPEC (P4): |J - 1/sqrt(det(g))|/|J| <
geometry_rtol, without the bpsign factor.  Kept separate from the code's
check so the two can be compared. -/
def jacobianCheckSpec (sqrtF : α → α) (m : MetricPoint α) (rtol : α) : Prop :=
  |Jmetric m - 1 / sqrtF (detMetric m)| / |Jmetric m| < rtol

end Metric

/-- A concrete grid-point with reversed poloidal field (bpsign = -1), as in
any region whose psi_vals decrease radially: Rxy = 1, Bpxy = -1, hy = 1,
dphidy = 0. -/
def exampleMetricPoint : MetricPoint ℝ := ⟨1, -1, 1, 0, -1⟩

/-- C2 counterexample: at the bpsign = -1 grid-point, the code's own
Jacobian check passes (so calcMetric returns normally), but the claimed
inequality |J - 1/sqrt(det(g))|/|J| < geometry_rtol is false: J = -1 while
1/sqrt(det(g)) = +1, so the relative difference is 2. -/
theorem calcMetric_jacobian_counterexample :
    jacobianCheckCode Real.sqrt exampleMetricPoint (1e-8) ∧
      ¬ jacobianCheckSpec Real.sqrt exampleMetricPoint (1e-8) := by
  have hdet : detMetric exampleMetricPoint = 1 := by
    norm_num [detMetric, g11, g22, g33, g12, g13, g23, Ishift, exampleMetricPoint]
  constructor
  · unfold jacobianCheckCode JcheckCode Jmetric
    rw [hdet, Real.sqrt_one]
    norm_num [exampleMetricPoint]
  · unfold jacobianCheckSpec Jmetric
    rw [hdet, Real.sqrt_one]
    norm_num [exampleMetricPoint]

/-- C2 amended: with the bpsign factor that the source actually uses, the
Jacobian check holds at every location where hy > 0, Rxy is nonzero, bpsign
is the sign (+1 or -1) matching the sign of Bpxy (both are enforced by
MeshRegion.geometry before calcMetric runs), and the tolerance is positive:
the check quantity bpsign/sqrt(det(g)) equals J = hy/Bpxy exactly, so the
relative difference is 0 < geometry_rtol. -/
theorem calcMetric_jacobian_consistency (m : MetricPoint ℝ) (rtol : ℝ)
    (hrtol : 0 < rtol) (hhy : 0 < m.hy) (hR : m.Rxy ≠ 0)
    (hsign : m.bpsign = 1 ∨ m.bpsign = -1) (hmatch : 0 < m.bpsign * m.Bpxy) :
    Jmetric m - JcheckCode Real.sqrt m = 0 ∧
      jacobianCheckCode Real.sqrt m rtol := by
  have hBp : m.Bpxy ≠ 0 := by
    intro h
    rw [h, mul_zero] at hmatch
    exact lt_irrefl 0 hmatch
  have hdet : detMetric m = m.Bpxy ^ 2 / m.hy ^ 2 := by
    unfold detMetric g11 g22 g33 g12 g13 g23 Ishift
    field_simp
    ring
  have habs : Real.sqrt (detMetric m) = |m.Bpxy| / m.hy := by
    rw [hdet, show m.Bpxy ^ 2 / m.hy ^ 2 = (|m.Bpxy| / m.hy) ^ 2 by
      rw [div_pow, sq_abs]]
    exact Real.sqrt_sq (div_nonneg (abs_nonneg _) hhy.le)
  have hJ : JcheckCode Real.sqrt m = Jmetric m := by
    unfold JcheckCode Jmetric
    rw [habs]
    rcases hsign with h1 | h1
    · have hBpPos : 0 < m.Bpxy := by
        rw [h1, one_mul] at hmatch
        exact hmatch
      rw [h1, abs_of_pos hBpPos]
      field_simp
    · have hBpNeg : m.Bpxy < 0 := by
        rw [h1] at hmatch
        nlinarith
      rw [h1, abs_of_neg hBpNeg]
      field_simp
  constructor
  · rw [hJ, sub_self]
  · unfold jacobianCheckCode
    rw [hJ, sub_self, abs_zero, zero_div]
    exact hrtol

/-- Witness for the amended C2 theorem at the concrete bpsign = -1 point. -/
theorem calcMetric_jacobian_consistency_witness :
    (0 : ℝ) < 1e-8 ∧ (0 : ℝ) < exampleMetricPoint.hy ∧
      exampleMetricPoint.Rxy ≠ 0 ∧
      (exampleMetricPoint.bpsign = 1 ∨ exampleMetricPoint.bpsign = -1) ∧
      0 < exampleMetricPoint.bpsign * exampleMetricPoint.Bpxy ∧
      (Jmetric exampleMetricPoint - JcheckCode Real.sqrt exampleMetricPoint = 0 ∧
        jacobianCheckCode Real.sqrt exampleMetricPoint (1e-8)) :=
  ⟨by norm_num, by norm_num [exampleMetricPoint], by norm_num [exampleMetricPoint],
    Or.inr rfl, by norm_num [exampleMetricPoint],
    calcMetric_jacobian_consistency exampleMetricPoint (1e-8) (by norm_num)
      (by norm_num [exampleMetricPoint]) (by norm_num [exampleMetricPoint])
      (Or.inr rfl) (by norm_num [exampleMetricPoint])⟩

/-! ### EquilibriumRegion.combineSfuncs (claim C6)

Embeds the both-ranges branch of combineSfuncs (equilibrium.py lines
1987-2048): the Gaussian weights with piecewise boundary values, the clamping
that keeps weight_lower + weight_upper <= 1, and the substitution of the
orthogonal spacing by (w_low*s_low + w_high*s_high)/(w_low + w_high) when
sfunc_orthogonal is None.  The fixed lower/upper spacing functions and the
orthogonal spacing are parameters; exp (numpy.exp) is a parameter,
instantiated with Real.exp in the theorem. -/

section CombineSfuncs

variable {α : Type} [LinearOrderedField α]

/-- weight_lower (equilibrium.py lines 2001-2009): 1 below index 0, 0 above
index_length, exp(-(i/N_norm/range_lower)^2) in between. -/
def weightLower (expF : α → α) (Nn range IL : α) (i : α) : α :=
  if i < 0 then 1 else if i > IL then 0 else expF (-((i / Nn / range) ^ 2))

/-- weight_upper (equilibrium.py lines 2013-2023): 0 below index 0, 1 above
index_length, exp(-((index_length - i)/N_norm/range_upper)^2) in between. -/
def weightUpper (expF : α → α) (Nn range IL : α) (i : α) : α :=
  if i < 0 then 0 else if i > IL then 1 else expF (-(((IL - i) / Nn / range) ^ 2))

/-- The new_sfunc closure of combineSfuncs for the case where both
range_lower and range_upper are set (equilibrium.py lines 1989-2048),
including the weight clamping and the None-orthogonal substitution. -/
def combineSfuncs (expF : α → α) (sfixedLower sfixedUpper : α → α)
    (sorth : Option (α → α)) (Nn rangeLower rangeUpper IL : α) : α → α :=
  fun i =>
    let sfl := sfixedLower i
    let sfu := sfixedUpper i
    let wl0 := weightLower expF Nn rangeLower IL i
    let wu0 := weightUpper expF Nn rangeUpper IL i
    let w := wl0 + wu0
    let wl := if w > 1 then wl0 / w else wl0
    let wu := if w > 1 then wu0 / w else wu0
    let so := match sorth with
      | some f => f i
      | none => (wl * sfl + wu * sfu) / (wl + wu)
    wl * sfl + wu * sfu + (1 - wl - wu) * so

/-- Helper: the raw weights are nonnegative and their sum is positive (exp
is everywhere positive). -/
lemma weights_sum_pos (Nn rl ru IL i : ℝ) :
    0 < weightLower Real.exp Nn rl IL i + weightUpper Real.exp Nn ru IL i := by
  unfold weightLower weightUpper
  split_ifs with h1 h2
  · norm_num
  · norm_num
  · positivity

/-- Helper: after clamping, the weight sum is nonzero. -/
lemma clamped_weights_ne_zero (wl0 wu0 : ℝ) (h : 0 < wl0 + wu0) :
    (if wl0 + wu0 > 1 then wl0 / (wl0 + wu0) else wl0)
      + (if wl0 + wu0 > 1 then wu0 / (wl0 + wu0) else wu0) ≠ 0 := by
  split_ifs with hgt
  · rw [div_add_div_same, div_self h.ne']
    norm_num
  · exact h.ne'

/-- Helper: the algebraic fixed-point identity.  With A the fixed-spacing
blend and W the weight sum, the first call returns A + (1-W)(A/W) = A/W and
the second call returns A + (1-W)(A/W) again. -/
lemma combine_fixed_point_algebra (sfl sfu wl wu : ℝ) (h : wl + wu ≠ 0) :
    wl * sfl + wu * sfu + (1 - wl - wu)
        * (wl * sfl + wu * sfu + (1 - wl - wu)
          * ((wl * sfl + wu * sfu) / (wl + wu)))
      = wl * sfl + wu * sfu + (1 - wl - wu)
        * ((wl * sfl + wu * sfu) / (wl + wu)) := by
  have key : wl * sfl + wu * sfu + (1 - wl - wu) * ((wl * sfl + wu * sfu) / (wl + wu))
      = (wl * sfl + wu * sfu) / (wl + wu) := by
    field_simp
    ring
  rw [key]
  exact key

/-- C6: combineSfuncs has an exact fixed point.  Calling it with
sfunc_orthogonal = None and then calling it again with the result of the
first call as the orthogonal spacing yields the identical s(i) at every
index (in particular the values agree to within 1e-12 on the interior). -/
theorem combineSfuncs_fixed_point (sl su : ℝ → ℝ) (Nn rl ru IL : ℝ) (i : ℝ) :
    combineSfuncs Real.exp sl su
        (some (combineSfuncs Real.exp sl su none Nn rl ru IL)) Nn rl ru IL i
      = combineSfuncs Real.exp sl su none Nn rl ru IL i := by
  simp only [combineSfuncs]
  exact combine_fixed_point_algebra _ _ _ _
    (clamped_weights_ne_zero _ _ (weights_sum_pos Nn rl ru IL i))

end CombineSfuncs

/-! ### Segment intersection (claim C9)

Embeds find_intersections (equilibrium.py lines 127-337) and
Equilibrium.wallIntersection (lines 2973-2993).  The polyline edges are
partitioned by orientation into 'a' edges (|dR| > |dZ|) and 'b' edges, each
edge's endpoints are sorted (in R for 'a', in Z for 'b'), and depending on
the query segment's own orientation one of two symmetric solve branches
runs.  Crucially for the claim: when no candidate crossing passes the
tolerance checks, find_intersections returns None — it raises nothing — and
wallIntersection then returns None as a plain value. -/

section Intersections

variable {α : Type} [LinearOrderedField α]

/-- intersect_tolerance = 1.0e-14 (equilibrium.py line 49). -/
def intersect_tolerance : α := 1 / 10 ^ 14

/-- The parallel-slope filter threshold 1.0e-15 used inside
find_intersections. -/
def parallel_tolerance : α := 1 / 10 ^ 15

/-- The per-edge solve for an 'a' edge (|dR1| > |dZ1|, endpoints sorted in
R) against an R-oriented query segment with sorted endpoints s, t
(equilibrium.py lines 188-226), including the parallel-slope filter. -/
def aCandidateR (s t : Point2D α) (e : Point2D α × Point2D α) : Option (Point2D α) :=
  let dR2 := t.R - s.R
  let dZ2 := t.Z - s.Z
  let dR1 := e.2.R - e.1.R
  let dZ1 := e.2.Z - e.1.Z
  if |dZ1 / dR1 - dZ2 / dR2| ≥ parallel_tolerance then
    let Rcross := (s.Z - e.1.Z + dZ1 / dR1 * e.1.R - dZ2 / dR2 * s.R)
      / (dZ1 / dR1 - dZ2 / dR2)
    if Rcross ≥ e.1.R - intersect_tolerance ∧ Rcross ≤ e.2.R + intersect_tolerance ∧
        Rcross ≥ s.R - intersect_tolerance ∧ Rcross ≤ t.R + intersect_tolerance then
      some ⟨Rcross, e.1.Z + dZ1 / dR1 * (Rcross - e.1.R)⟩
    else none
  else none

/-- The per-edge solve for a 'b' edge (endpoints sorted in Z) against an
R-oriented query segment (equilibrium.py lines 228-253). -/
def bCandidateR (s t : Point2D α) (e : Point2D α × Point2D α) : Option (Point2D α) :=
  let dR2 := t.R - s.R
  let dZ2 := t.Z - s.Z
  let dR1 := e.2.R - e.1.R
  let dZ1 := e.2.Z - e.1.Z
  let Rcross := (e.1.R + dR1 / dZ1 * (s.Z - dZ2 / dR2 * s.R - e.1.Z))
    / (1 - dR1 / dZ1 * dZ2 / dR2)
  let Zcross := s.Z + dZ2 / dR2 * (Rcross - s.R)
  if Zcross ≥ e.1.Z - intersect_tolerance ∧ Zcross ≤ e.2.Z + intersect_tolerance ∧
      Rcross ≥ s.R - intersect_tolerance ∧ Rcross ≤ t.R + intersect_tolerance then
    some ⟨Rcross, Zcross⟩
  else none

/-- The per-edge solve for an 'a' edge against a Z-oriented query segment
(equilibrium.py lines 266-291). -/
def aCandidateZ (s t : Point2D α) (e : Point2D α × Point2D α) : Option (Point2D α) :=
  let dR2 := t.R - s.R
  let dZ2 := t.Z - s.Z
  let dR1 := e.2.R - e.1.R
  let dZ1 := e.2.Z - e.1.Z
  let Zcross := (e.1.Z + dZ1 / dR1 * (s.R - dR2 / dZ2 * s.Z - e.1.R))
    / (1 - dZ1 * dR2 / (dR1 * dZ2))
  let Rcross := s.R + dR2 / dZ2 * (Zcross - s.Z)
  if Rcross ≥ e.1.R - intersect_tolerance ∧ Rcross ≤ e.2.R + intersect_tolerance ∧
      Zcross ≥ s.Z - intersect_tolerance ∧ Zcross ≤ t.Z + intersect_tolerance then
    some ⟨Rcross, Zcross⟩
  else none

/-- The per-edge solve for a 'b' edge against a Z-oriented query segment
(equilibrium.py lines 293-329), including the parallel-slope filter. -/
def bCandidateZ (s t : Point2D α) (e : Point2D α × Point2D α) : Option (Point2D α) :=
  let dR2 := t.R - s.R
  let dZ2 := t.Z - s.Z
  let dR1 := e.2.R - e.1.R
  let dZ1 := e.2.Z - e.1.Z
  if |dR2 / dZ2 - dR1 / dZ1| ≥ parallel_tolerance then
    let Zcross := (e.1.R - s.R + dR2 / dZ2 * s.Z - dR1 / dZ1 * e.1.Z)
      / (dR2 / dZ2 - dR1 / dZ1)
    if Zcross ≥ e.1.Z - intersect_tolerance ∧ Zcross ≤ e.2.Z + intersect_tolerance ∧
        Zcross ≥ s.Z - intersect_tolerance ∧ Zcross ≤ t.Z + intersect_tolerance then
      some ⟨s.R + dR2 / dZ2 * (Zcross - s.Z), Zcross⟩
    else none
  else none

/-- find_intersections (equilibrium.py lines 127-337).  Partitions the
polyline edges into 'a' edges (|dR| > |dZ|) and 'b' edges, sorts each
edge's endpoints, runs the branch matching the query segment's orientation,
and returns the accepted crossings ('a' hits first, then 'b' hits, in edge
order, matching the numpy concatenation) — or None when there are none. -/
def find_intersections (l1 : List (Point2D α)) (l2start l2end : Point2D α) :
    Option (List (Point2D α)) :=
  let edges := l1.zip l1.tail
  let aEdgesRaw := edges.filter (fun e => decide (|e.1.R - e.2.R| > |e.1.Z - e.2.Z|))
  let bEdgesRaw := edges.filter (fun e => decide (¬(|e.1.R - e.2.R| > |e.1.Z - e.2.Z|)))
  let aEdges := aEdgesRaw.map (fun e => if e.1.R > e.2.R then (e.2, e.1) else e)
  let bEdges := bEdgesRaw.map (fun e => if e.1.Z > e.2.Z then (e.2, e.1) else e)
  if |l2end.R - l2start.R| > |l2end.Z - l2start.Z| then
    let s := if l2start.R > l2end.R then l2end else l2start
    let t := if l2start.R > l2end.R then l2start else l2end
    let all := aEdges.filterMap (aCandidateR s t) ++ bEdges.filterMap (bCandidateR s t)
    if all.isEmpty then none else some all
  else
    let s := if l2start.Z > l2end.Z then l2end else l2start
    let t := if l2start.Z > l2end.Z then l2start else l2end
    let all := aEdges.filterMap (aCandidateZ s t) ++ bEdges.filterMap (bCandidateZ s t)
    if all.isEmpty then none else some all

/-- The body of Equilibrium.wallIntersection after the wall has been closed
(equilibrium.py lines 2979-2993): call find_intersections; on None return
None as an ordinary value; otherwise take the first intersection, turn the
two asserts (fewer than three intersections; two intersections must coincide
within intersect_tolerance) into error results. -/
def wallIntersectionClosed (closed : List (Point2D α)) (p1 p2 : Point2D α) :
    Except String (Option (Point2D α)) :=
  match find_intersections closed p1 p2 with
  | none => Except.ok none
  | some ints =>
    match ints with
    | [] => Except.ok none
    | i0 :: rest =>
      if 3 ≤ ints.length then Except.error "too many intersections with wall"
      else
        match rest with
        | [] => Except.ok (some i0)
        | i1 :: _ =>
          if |i0.R - i1.R| < intersect_tolerance ∧
              |i0.Z - i1.Z| < intersect_tolerance then
            Except.ok (some i0)
          else Except.error "Multiple intersections with wall found"

/-- Equilibrium.wallIntersection (equilibrium.py lines 2973-2993): closes
the wall polygon with its first point and processes the intersections. -/
def wallIntersection (wall : List (Point2D α)) (p1 p2 : Point2D α) :
    Except String (Option (Point2D α)) :=
  match wall.head? with
  | none => Except.error "IndexError: empty wall"
  | some w0 => wallIntersectionClosed (wall ++ [w0]) p1 p2

end Intersections

/-- A concrete wall polygon (a unit square away from the origin); the query
segment (0,0)-(1,0) does not cross it. -/
def exampleWall : List (Point2D ℚ) := [⟨10, 10⟩, ⟨11, 10⟩, ⟨11, 11⟩, ⟨10, 11⟩]

/-- C9 counterexample: with no intersection between the wall and the segment
(0,0)-(1,0), find_intersections returns None and wallIntersection returns
None through its normal return path (Except.ok), not through any
NoIntersection error: no such error exists in the source. -/
theorem wallIntersection_counterexample :
    find_intersections (exampleWall ++ [⟨10, 10⟩]) (⟨0, 0⟩ : Point2D ℚ) ⟨1, 0⟩
        = none ∧
      wallIntersection exampleWall (⟨0, 0⟩ : Point2D ℚ) ⟨1, 0⟩ = Except.ok none := by
  have h : find_intersections (exampleWall ++ [⟨10, 10⟩]) (⟨0, 0⟩ : Point2D ℚ) ⟨1, 0⟩
      = none := by
    norm_num [exampleWall, find_intersections, aCandidateR, bCandidateR, aCandidateZ,
      bCandidateZ, intersect_tolerance, parallel_tolerance, List.filter,
      List.filterMap]
  refine ⟨h, ?_⟩
  show wallIntersectionClosed (exampleWall ++ [⟨10, 10⟩]) (⟨0, 0⟩ : Point2D ℚ) ⟨1, 0⟩
    = Except.ok none
  unfold wallIntersectionClosed
  rw [h]

/-- C9 amended: whenever the intersection result set is empty
(find_intersections returns None), wallIntersection returns None as a normal
value — the caller observes an ordinary None return, not an error. -/
theorem wallIntersection_none_on_empty {α : Type} [LinearOrderedField α]
    (w0 : Point2D α) (rest : List (Point2D α)) (p1 p2 : Point2D α)
    (h : find_intersections ((w0 :: rest) ++ [w0]) p1 p2 = none) :
    wallIntersection (w0 :: rest) p1 p2 = Except.ok none := by
  show wallIntersectionClosed ((w0 :: rest) ++ [w0]) p1 p2 = Except.ok none
  unfold wallIntersectionClosed
  rw [h]

/-- Witness for the amended C9 theorem at the concrete square wall. -/
theorem wallIntersection_none_on_empty_witness :
    find_intersections ((⟨10, 10⟩ :: [⟨11, 10⟩, ⟨11, 11⟩, ⟨10, 11⟩])
          ++ [(⟨10, 10⟩ : Point2D ℚ)]) ⟨0, 0⟩ ⟨1, 0⟩ = none ∧
      wallIntersection (⟨10, 10⟩ :: [⟨11, 10⟩, ⟨11, 11⟩, ⟨10, 11⟩])
          (⟨0, 0⟩ : Point2D ℚ) ⟨1, 0⟩ = Except.ok none := by
  have h : find_intersections ((⟨10, 10⟩ :: [⟨11, 10⟩, ⟨11, 11⟩, ⟨10, 11⟩])
      ++ [(⟨10, 10⟩ : Point2D ℚ)]) ⟨0, 0⟩ ⟨1, 0⟩ = none := by
    norm_num [find_intersections, aCandidateR, bCandidateR, aCandidateZ,
      bCandidateZ, intersect_tolerance, parallel_tolerance, List.filter,
      List.filterMap]
  exact ⟨h, wallIntersection_none_on_empty ⟨10, 10⟩ [⟨11, 10⟩, ⟨11, 11⟩, ⟨10, 11⟩]
    ⟨0, 0⟩ ⟨1, 0⟩ h⟩

/-! ### MeshRegion.addPointAtWallToContours upper-wall scan start (claim C10)

mesh.py lines 426-430 read:

    if upper_wall:
        if lower_wall:
            starti = len(contour//2)
        else:
            starti = 0

The expression `contour//2` applies the floor-division operator to a
PsiContour object.  The PsiContour class defines only the special methods
listed below (equilibrium.py lines 760-962) — there is no floordiv method —
so when both walls are present Python raises a TypeError before the
upper-wall scan can start.  The write-up in the source comments and the
symmetric lower-wall branch (line 404: `starti = len(contour)//2`) show the
intent was `len(contour)//2`. -/

/-- The special (dunder) methods the PsiContour class actually defines,
read off the class body in equilibrium.py: init, iter, str, getitem, len. -/
def psiContourSpecialMethods : List String :=
  ["init", "iter", "str", "getitem", "len"]

/-- Evaluation of the scan start index `starti` for the upper-wall branch of
addPointAtWallToContours (mesh.py lines 426-430).  When lower_wall is true
the source evaluates `len(contour//2)`, which needs a floordiv special
method on PsiContour; it has none, so the evaluation is a TypeError.  When
lower_wall is false the source assigns 0. -/
def upperWallScanStart (lower_wall : Bool) (contour_len : ℕ) : Except String ℕ :=
  if lower_wall then
    if "floordiv" ∈ psiContourSpecialMethods then
      Except.ok (contour_len / 2)
    else
      Except.error "TypeError: unsupported operand types for floor division: PsiContour and int"
  else
    Except.ok 0

/-- C10: for a region with walls at both ends (connections None at both the
lower and the upper end), the upper-wall scan-start evaluation raises a
TypeError instead of producing len(contour)//2; shown here at a contour of
21 points, where the claim expects the scan to start from index 10. -/
theorem addPointAtWallToContours_upper_start_typeerror :
    upperWallScanStart true 21
        = Except.error
          "TypeError: unsupported operand types for floor division: PsiContour and int" ∧
      upperWallScanStart false 21 = Except.ok 0 ∧ (21 : ℕ) / 2 = 10 := by
  refine ⟨?_, rfl, rfl⟩
  unfold upperWallScanStart psiContourSpecialMethods
  simp

/-! ### PsiContour.refinePoint: newton and line methods (claim C1)

Embeds refinePointNewton (equilibrium.py lines 980-1013) and
refinePointLinesearch (lines 1015-1078).  The 1D rootfinder scipy.brentq is
external library code; it is modelled from its documented interface — it
brackets a sign change on [a, b] and returns a point within xtol of a root
(the xtol guarantee is on the abscissa, not on the function value) — as the
bisection that Brent's method falls back to, returning the midpoint of the
final bracket.  A SolutionError becomes a None result. -/

section RefinePoint

variable {α : Type} [LinearOrderedField α]

/-- Vector addition on Point2D (Python `p + q`). -/
def Point2D.add (p q : Point2D α) : Point2D α := ⟨p.R + q.R, p.Z + q.Z⟩

/-- Scalar multiplication on Point2D (Python `s * tangent`). -/
def Point2D.smul (c : α) (p : Point2D α) : Point2D α := ⟨c * p.R, c * p.Z⟩

/-- The forward-difference step of dfds in refinePointNewton, eps = 1e-10. -/
def newton_eps : α := 1 / 10 ^ 10

/-- The Newton iteration loop of refinePointNewton (equilibrium.py lines
1002-1013): s -= fprev/dfds(s); converged when |f| < atol; diverging (a
SolutionError, modelled as None) when |f| grows or count exceeds 10.  The
fuel argument only makes the recursion structural: with fuel 12 the
count > 10 check always fires first. -/
def newtonIter (f : α → α) (eps atol : α) :
    ℕ → α → α → ℕ → Option α
  | 0, _, _, _ => none
  | fuel + 1, s, fprev, count =>
    let s' := s - fprev / ((f (s + eps) - f s) / eps)
    let fnext := f s'
    if |fnext| < atol then some s'
    else if |fprev| < |fnext| ∨ 10 < count then none
    else newtonIter f eps atol fuel s' fnext (count + 1)

/-- PsiContour.refinePointNewton (equilibrium.py lines 980-1013): on entry,
return p unchanged when |psi(p) - psival| < atol*|psival| already holds;
otherwise iterate Newton on g(s) = psi(p + s*tangent) - psival. -/
def refinePointNewton (psi : Point2D α → α) (psival atol : α)
    (p tangent : Point2D α) : Option (Point2D α) :=
  let f := fun s => psi (p.add (Point2D.smul s tangent)) - psival
  if |f 0| < atol * |psival| then some p
  else
    match newtonIter f newton_eps atol 12 0 (f 0) 0 with
    | some s => some (p.add (Point2D.smul s tangent))
    | none => none

/-- Bisection with the scipy xtol semantics: subdivide the bracket until it
is narrower than xtol, then return its midpoint.  This is the guarantee
scipy.brentq documents (the returned abscissa is within xtol of a root); no
bound on |f| at the returned point is provided. -/
def bisectLoop (f : α → α) (xtol : α) : ℕ → α → α → α
  | 0, a, b => (a + b) / 2
  | fuel + 1, a, b =>
    if b - a < xtol then (a + b) / 2
    else
      let m := (a + b) / 2
      if f a * f m ≤ 0 then bisectLoop f xtol fuel a m
      else bisectLoop f xtol fuel m b

/-- Modelled from the documented interface of the external scipy.brentq:
fails (ValueError, caught by the caller) when f(a) and f(b) have the same
strict sign, otherwise converges to a point within xtol of a root.  scipy's
default maxiter is 100. -/
def brentq (f : α → α) (a b xtol : α) : Option α :=
  if f a * f b > 0 then none
  else some (bisectLoop f xtol 100 a b)

/-- The width-halving loop of refinePointLinesearch (equilibrium.py lines
1038-1078): try to bracket a root of f2 along the perpendicular segment of
half-width w through p; on failure halve w, giving up (SolutionError) once
w < atol.  pline(s) = p + 2*(s - 0.5)*w*perpIdentityVector.  The fuel
argument makes the recursion structural. -/
def linesearchLoop (f2 : Point2D α → α) (p perpVec : Point2D α) (atol : α) :
    ℕ → α → Option (Point2D α)
  | 0, _ => none
  | fuel + 1, w =>
    match brentq
        (fun s => f2 (p.add (Point2D.smul (2 * (s - 1 / 2) * w) perpVec)))
        0 1 atol with
    | some snew => some (p.add (Point2D.smul (2 * (snew - 1 / 2) * w) perpVec))
    | none => if w / 2 < atol then none else linesearchLoop f2 p perpVec atol fuel (w / 2)

/-- PsiContour.refinePointLinesearch (equilibrium.py lines 1015-1078): early
return when |psi(p) - psival| < atol*|psival|; otherwise search along the
perpendicular to the tangent.  numpy.sqrt is the sqrtF parameter
(Real.sqrt in the theorems). -/
def refinePointLinesearch (sqrtF : α → α) (psi : Point2D α → α) (psival : α)
    (p tangent : Point2D α) (width atol : α) (fuel : ℕ) : Option (Point2D α) :=
  if |psi p - psival| < atol * |psival| then some p
  else
    let modTangent := sqrtF (tangent.R ^ 2 + tangent.Z ^ 2)
    linesearchLoop (fun q => psi q - psival) p
      ⟨tangent.Z / modTangent, -(tangent.R / modTangent)⟩ atol fuel width

end RefinePoint

/-! ### Theorems for claim C1 -/

section RefinePointTheorems

variable {α : Type} [LinearOrderedField α]

/-- Helper: one-step unfolding of newtonIter for nonzero fuel, usable on
numeric fuel literals. -/
lemma newtonIter_unfold (f : α → α) (eps atol : α) (fuel : ℕ) (s fprev : α)
    (count : ℕ) (h : fuel ≠ 0) :
    newtonIter f eps atol fuel s fprev count
      = (let s' := s - fprev / ((f (s + eps) - f s) / eps)
         let fnext := f s'
         if |fnext| < atol then some s'
         else if |fprev| < |fnext| ∨ 10 < count then none
         else newtonIter f eps atol (fuel - 1) s' fnext (count + 1)) := by
  cases fuel with
  | zero => exact absurd rfl h
  | succ n => rfl

/-- Helper: whenever the Newton loop returns a point, the function value
there is below atol in absolute value (the only `some` exit is the
convergence branch). -/
lemma newtonIter_some_bound (f : α → α) (eps atol : α) :
    ∀ (fuel : ℕ) (s fprev : α) (count : ℕ) (s' : α),
      newtonIter f eps atol fuel s fprev count = some s' → |f s'| < atol := by
  intro fuel
  induction fuel with
  | zero =>
    intro s fprev count s' h
    exact Option.noConfusion h
  | succ n ih =>
    intro s fprev count s' h
    simp only [newtonIter] at h
    split_ifs at h with h1 h2
    · cases h
      exact h1
    · exact ih _ _ _ _ h

/-- C1 amended (newton part): every point returned by refinePointNewton
matches the contour psi-value to within the configured tolerance,
|psi(q) - psival| <= atol * max(|psival|, 1): the early-return branch
guarantees |psi(p) - psival| < atol*|psival| and the Newton loop only
returns on |g| < atol. -/
theorem refinePointNewton_psi_tolerance (psi : Point2D α → α) (psival atol : α)
    (p tangent q : Point2D α)
    (h : refinePointNewton psi psival atol p tangent = some q) :
    |psi q - psival| ≤ atol * max |psival| 1 := by
  simp only [refinePointNewton] at h
  split_ifs at h with h0
  · have hq : p = q := Option.some.inj h
    subst hq
    have hp0 : p.add (Point2D.smul 0 tangent) = p := by
      cases p
      simp [Point2D.add, Point2D.smul]
    rw [hp0] at h0
    have hprodpos : 0 < atol * |psival| := lt_of_le_of_lt (abs_nonneg _) h0
    have hatol : 0 < atol := by
      by_contra hneg
      push_neg at hneg
      exact absurd hprodpos
        (not_lt.mpr (mul_nonpos_of_nonpos_of_nonneg hneg (abs_nonneg _)))
    calc |psi p - psival| ≤ atol * |psival| := h0.le
      _ ≤ atol * max |psival| 1 :=
        mul_le_mul_of_nonneg_left (le_max_left _ _) hatol.le
  · cases hres : newtonIter
        (fun s => psi (p.add (Point2D.smul s tangent)) - psival)
        newton_eps atol 12 0
        (psi (p.add (Point2D.smul 0 tangent)) - psival) 0 with
    | none =>
      rw [hres] at h
      exact absurd h (by simp)
    | some s =>
      rw [hres] at h
      have hq : p.add (Point2D.smul s tangent) = q := Option.some.inj h
      subst hq
      have hb := newtonIter_some_bound _ _ _ _ _ _ _ _ hres
      have hatol : 0 < atol := lt_of_le_of_lt (abs_nonneg _) hb
      exact le_of_lt (lt_of_lt_of_le hb
        (le_mul_of_one_le_right hatol.le (le_max_right _ _)))

/-- Witness for the amended C1 theorem: on psi(R,Z) = Z with psival = 1/2,
one Newton step from (0,0) along (0,1) lands exactly on (0, 1/2). -/
theorem refinePointNewton_psi_tolerance_witness :
    refinePointNewton (fun q : Point2D ℚ => q.Z) (1 / 2) (1 / 100)
        ⟨0, 0⟩ ⟨0, 1⟩ = some ⟨0, 1 / 2⟩ ∧
      |(fun q : Point2D ℚ => q.Z) (⟨0, 1 / 2⟩ : Point2D ℚ) - 1 / 2|
        ≤ (1 / 100) * max |(1 / 2 : ℚ)| 1 := by
  have hEval : refinePointNewton (fun q : Point2D ℚ => q.Z) (1 / 2) (1 / 100)
      ⟨0, 0⟩ ⟨0, 1⟩ = some ⟨0, 1 / 2⟩ := by
    norm_num [refinePointNewton, newtonIter_unfold, newton_eps, Point2D.add,
      Point2D.smul]
  exact ⟨hEval,
    refinePointNewton_psi_tolerance (fun q : Point2D ℚ => q.Z) (1 / 2) (1 / 100)
      ⟨0, 0⟩ ⟨0, 1⟩ ⟨0, 1 / 2⟩ hEval⟩

/-- Helper: one-step unfolding of bisectLoop for nonzero fuel, usable on
numeric fuel literals. -/
lemma bisectLoop_unfold (f : α → α) (xtol : α) (fuel : ℕ) (a b : α)
    (h : fuel ≠ 0) :
    bisectLoop f xtol fuel a b
      = if b - a < xtol then (a + b) / 2
        else if f a * f ((a + b) / 2) ≤ 0 then
          bisectLoop f xtol (fuel - 1) a ((a + b) / 2)
        else bisectLoop f xtol (fuel - 1) ((a + b) / 2) b := by
  cases fuel with
  | zero => exact absurd rfl h
  | succ n => rfl

/-- Helper: the five-step bisection run on [0,1] with xtol = 1/10 that the
line-method counterexample takes: the bracket shrinks to
[5/8, 11/16] and the midpoint 21/32 is returned. -/
lemma bisect_counterexample_run (f : ℝ → ℝ) (hf0 : 0 < f 0)
    (hf12 : 0 < f (1 / 2)) (hf34 : f (3 / 4) < 0) (hf58 : 0 < f (5 / 8))
    (hf1116 : f (11 / 16) < 0) :
    bisectLoop f (1 / 10) 100 0 1 = 21 / 32 := by
  rw [bisectLoop_unfold _ _ _ _ _ (by norm_num), if_neg (by norm_num),
    if_neg (by norm_num; exact mul_pos hf0 hf12)]
  norm_num
  rw [bisectLoop_unfold _ _ _ _ _ (by norm_num), if_neg (by norm_num),
    if_pos (by norm_num; exact (mul_nonpos_of_nonneg_of_nonpos hf12.le hf34.le))]
  norm_num
  rw [bisectLoop_unfold _ _ _ _ _ (by norm_num), if_neg (by norm_num),
    if_neg (by norm_num; exact mul_pos hf12 hf58)]
  norm_num
  rw [bisectLoop_unfold _ _ _ _ _ (by norm_num), if_neg (by norm_num),
    if_pos (by norm_num; exact (mul_nonpos_of_nonneg_of_nonpos hf58.le hf1116.le))]
  norm_num
  rw [bisectLoop_unfold _ _ _ _ _ (by norm_num), if_pos (by norm_num)]
  norm_num

/-- Helper: when brentq succeeds on the first half-width, linesearchLoop
returns pline(snew). -/
lemma linesearchLoop_first (f2 : Point2D ℝ → ℝ) (p perpVec : Point2D ℝ)
    (atol w : ℝ) (fuel : ℕ) (snew : ℝ) (hfuel : fuel ≠ 0)
    (hbr : brentq
        (fun s => f2 (p.add (Point2D.smul (2 * (s - 1 / 2) * w) perpVec)))
        0 1 atol = some snew) :
    linesearchLoop f2 p perpVec atol fuel w
      = some (p.add (Point2D.smul (2 * (snew - 1 / 2) * w) perpVec)) := by
  cases fuel with
  | zero => exact absurd rfl hfuel
  | succ n =>
    simp only [linesearchLoop]
    rw [hbr]

/-- The steep psi field of the line-method counterexample: psi(R,Z) =
1000*Z, an admissible equilibrium interpolant near the query point. -/
def examplePsiSteep : Point2D ℝ → ℝ := fun q => 1000 * q.Z

/-- C1 counterexample: the line method succeeds (brentq brackets the root
and converges within its xtol = refine_atol = 1/10 on the abscissa), yet the
returned point (0, 1/48) has |psi - psi_target| = 1000/48, far beyond
refine_atol * max(|psi_target|, 1) = 1/10: the rootfinder tolerance bounds
the parameter, not the psi mismatch. -/
theorem refinePoint_line_counterexample :
    refinePointLinesearch Real.sqrt examplePsiSteep 0
        (⟨0, 1 / 3⟩ : Point2D ℝ) ⟨1, 0⟩ 1 (1 / 10) 10 = some ⟨0, 1 / 48⟩ ∧
      ¬ (|examplePsiSteep ⟨0, 1 / 48⟩ - 0| ≤ (1 / 10) * max |(0 : ℝ)| 1) := by
  constructor
  · have hbr : brentq
        (fun s => (fun q => examplePsiSteep q - 0)
          ((Point2D.mk (0 : ℝ) (1 / 3)).add
            (Point2D.smul (2 * (s - 1 / 2) * 1) ⟨0, -1⟩)))
        0 1 (1 / 10) = some (21 / 32) := by
      unfold brentq
      rw [if_neg (by norm_num [examplePsiSteep, Point2D.add, Point2D.smul])]
      rw [bisect_counterexample_run _
        (by norm_num [examplePsiSteep, Point2D.add, Point2D.smul])
        (by norm_num [examplePsiSteep, Point2D.add, Point2D.smul])
        (by norm_num [examplePsiSteep, Point2D.add, Point2D.smul])
        (by norm_num [examplePsiSteep, Point2D.add, Point2D.smul])
        (by norm_num [examplePsiSteep, Point2D.add, Point2D.smul])]
    have hloop := linesearchLoop_first (fun q => examplePsiSteep q - 0)
      ⟨0, 1 / 3⟩ ⟨0, -1⟩ (1 / 10) 1 10 (21 / 32) (by norm_num) hbr
    simp only [refinePointLinesearch]
    rw [if_neg (by norm_num [examplePsiSteep])]
    have hsq : Real.sqrt ((1 : ℝ) ^ 2 + 0 ^ 2) = 1 := by
      rw [show ((1 : ℝ) ^ 2 + (0 : ℝ) ^ 2) = 1 by norm_num]
      exact Real.sqrt_one
    rw [hsq, show (0 : ℝ) / 1 = 0 by norm_num, show -((1 : ℝ) / 1) = -1 by norm_num,
      hloop]
    norm_num [Point2D.add, Point2D.smul, Point2D.mk.injEq]
  · rw [show max |(0 : ℝ)| 1 = 1 by simp]
    norm_num [examplePsiSteep]
    rw [abs_of_pos (show (0 : ℝ) < 125 / 6 by norm_num)]
    norm_num

end RefinePointTheorems

/-! ### EquilibriumRegion spacing laws (claims C3 and C4)

Embeds getMonotonicPoloidalDistanceFunc (equilibrium.py lines 2183-2379) and
the both-boundaries branch of getSqrtPoloidalDistanceFunc (lines 2480-2575).
numpy.sqrt and numpy.log are the sqrtF / logF parameters (Real.sqrt and
Real.log in the theorems).  The concave branch obtains l1 from a brentq root
search on the integral constraint; l1 is a parameter here, and the theorems
assume it is an exact root of the constraint (the rootfinder's task). -/

section SpacingDefs

variable {α : Type} [LinearOrderedField α]

/-- The quadratic s-prime coefficient a of the convex branch
(equilibrium.py lines 2360-2363). -/
def convexA (d_lower d_upper length N Nn : α) : α :=
  3 * (d_upper + d_lower) * (Nn / N) ^ 2 - 6 * length * (Nn / N) ^ 3

/-- The linear s-prime coefficient b of the convex branch (equilibrium.py
line 2364). -/
def convexB (d_lower d_upper length N Nn : α) : α :=
  (d_upper - d_lower) * Nn / N - convexA d_lower d_upper length N Nn * N / Nn

/-- The interior cubic of the convex branch (equilibrium.py lines
2375-2377): sN(iN) = 1/3*a*iN^3 + 1/2*b*iN^2 + c*iN with c = d_lower. -/
def convexMid (d_lower d_upper length N Nn : α) (i : α) : α :=
  1 / 3 * convexA d_lower d_upper length N Nn * (i / Nn) ^ 3
    + 1 / 2 * convexB d_lower d_upper length N Nn * (i / Nn) ^ 2 + d_lower * i / Nn

/-- The convex branch of getMonotonicPoloidalDistanceFunc (equilibrium.py
lines 2358-2379): s-prime is the quadratic through d_lower and d_upper with
integral length, s its antiderivative, linearly extended with slopes
d_lower (below index 0) and d_upper (above index N), all in the normalised
variable iN = i/N_norm. -/
def monotonicConvex (d_lower d_upper length N Nn : α) : α → α :=
  fun i =>
    if i < 0 then d_lower * i / Nn
    else if i > N then length + d_upper * (i - N) / Nn
    else convexMid d_lower d_upper length N Nn i

/-- The l2 / r2 coefficient of the concave branch (equilibrium.py lines
2294-2311): the positive root of d*q^2 + d*(N/N_norm)*q = l1*(N/N_norm). -/
def concaveQ (sqrtF : α → α) (d N Nn l1 : α) : α :=
  (-d * N / Nn + sqrtF ((d * N / Nn) ^ 2 + 4 * d * l1 * N / Nn)) / (2 * d)

/-- The interior log-form of the concave branch (equilibrium.py lines
2350-2355), with the coefficients as explicit arguments. -/
def concaveMid (logF : α → α) (l1 l2 l3 r2 r3 N Nn : α) (i : α) : α :=
  l1 * logF (i / Nn / l2 + 1) - l3 * i / Nn
    - l1 * logF (1 - i / (Nn * (r2 + N / Nn))) - r3 * i / Nn

/-- The concave branch of getMonotonicPoloidalDistanceFunc (equilibrium.py
lines 2290-2357), parametrised by l1 (found by brentq in the source); l2,
l3, r2, r3 are computed from l1 exactly as in the source. -/
def monotonicConcave (sqrtF logF : α → α) (d_lower d_upper length N Nn l1 : α) :
    α → α :=
  fun i =>
    if i < 0 then d_lower * i / Nn
    else if i > N then length + d_upper * (i - N) / Nn
    else concaveMid logF l1 (concaveQ sqrtF d_lower N Nn l1)
      (l1 / concaveQ sqrtF d_lower N Nn l1 - d_lower)
      (concaveQ sqrtF d_upper N Nn l1)
      (l1 / concaveQ sqrtF d_upper N Nn l1 - d_upper) N Nn i

/-- The integral constraint whose root brentq finds for the concave branch
(equilibrium.py lines 2317-2326). -/
def concaveConstraint (sqrtF logF : α → α) (d_lower d_upper length N Nn l1 : α) :
    α :=
  let l2 := concaveQ sqrtF d_lower N Nn l1
  let l3 := l1 / l2 - d_lower
  let r2 := concaveQ sqrtF d_upper N Nn l1
  let r3 := l1 / r2 - d_upper
  l1 * logF (N / (Nn * l2) + 1) - l3 * N / Nn
    + l1 * logF (N / (Nn * r2) + 1) - r3 * N / Nn - length

/-- The branch selection of getMonotonicPoloidalDistanceFunc (equilibrium.py
line 2290): concave when length < 0.5*(d_upper + d_lower)*N/N_norm
- 1e-8*length, else convex. -/
def getMonotonicPoloidalDistanceFunc (sqrtF logF : α → α)
    (length N Nn d_lower d_upper l1 : α) : α → α :=
  if length < 1 / 2 * (d_upper + d_lower) * N / Nn - (1 / 10 ^ 8) * length then
    monotonicConcave sqrtF logF d_lower d_upper length N Nn l1
  else
    monotonicConvex d_lower d_upper length N Nn

/-- The both-boundaries branch of getSqrtPoloidalDistanceFunc
(equilibrium.py lines 2480-2575): s(iN) = a*sqrt(iN) - b*sqrt(N/N_norm-iN)
+ c + d*iN + e*iN^2 + f*iN^3 with the closed-form coefficients of the
source.  No linear extension is applied outside [0, N]. -/
def sqrtSfuncBoth (sqrtF : α → α) (length N Nn b_lower a_lower b_upper a_upper : α) :
    α → α :=
  let a := 2 * a_lower
  let b := 2 * a_upper
  let c := b * sqrtF (N / Nn)
  let d := b_lower - b / 2 / sqrtF (N / Nn)
  let f := 2 * (a * sqrtF (N / Nn) + c + d * N / Nn / 2 + b_upper * N / Nn / 2
    - a * sqrtF (N / Nn) / 4 - length) * Nn ^ 3 / N ^ 3
  let e := (b_upper - a / 2 / sqrtF (N / Nn) - d) * Nn / 2 / N - 3 / 2 * f * N / Nn
  fun i => a * sqrtF (i / Nn) - b * sqrtF ((N - i) / Nn) + c + d * i / Nn
    + e * (i / Nn) ^ 2 + f * (i / Nn) ^ 3

/-- The monotonicity assertions of the both-boundaries branch
(equilibrium.py lines 2527-2566), in the case a_lower = a_upper = 0 (both
sqrt amplitudes absent, so the strict endpoint checks apply): a >= 0, the
gradient of the non-singular part positive at the start, b >= 0, and the
gradient of the non-singular part positive at the end. -/
def sqrtSfuncBothAsserts (sqrtF : α → α)
    (length N Nn b_lower a_lower b_upper a_upper : α) : Prop :=
  let a := 2 * a_lower
  let b := 2 * a_upper
  let c := b * sqrtF (N / Nn)
  let d := b_lower - b / 2 / sqrtF (N / Nn)
  let f := 2 * (a * sqrtF (N / Nn) + c + d * N / Nn / 2 + b_upper * N / Nn / 2
    - a * sqrtF (N / Nn) / 4 - length) * Nn ^ 3 / N ^ 3
  let e := (b_upper - a / 2 / sqrtF (N / Nn) - d) * Nn / 2 / N - 3 / 2 * f * N / Nn
  0 ≤ a ∧ 0 < b / (2 * sqrtF (N / Nn)) + d ∧ 0 ≤ b ∧
    0 < a / (2 * sqrtF (N / Nn)) + d + 2 * e * N / Nn + 3 * f * (N / Nn) ^ 2

/-- The integer-sample monotonicity check _checkMonotonic (equilibrium.py
lines 1772-1798): the spacing function is evaluated at the integer indices
from -extend_lower to 2*ny_noguards + extend_upper and a ValueError is
raised iff some consecutive pair strictly decreases; this Prop holds iff
the check passes.  It is run on every sqrt-family and monotonic-family
production by getSfuncFixedSpacing (equilibrium.py line 1824). -/
def checkMonotonic (s : α → α) (extend_lower ny_noguards extend_upper : ℤ) :
    Prop :=
  ∀ i : ℤ, -extend_lower ≤ i → i < 2 * ny_noguards + extend_upper →
    ¬ s ((i : α) + 1) < s ((i : α))

end SpacingDefs

/-- C4 counterexample: the sqrt-family constructor with both boundaries set
(b_lower = b_upper = 1, a_lower = a_upper = 0, length = 1/10, N = N_norm =
2, so ny_noguards = 1 and no guard extensions) passes all four of its own
monotonicity assertions AND the integer-sample check _checkMonotonic that
getSfuncFixedSpacing runs on it (s(0) = 0 < s(1) = 1/20 < s(2) = 1/10),
yet the returned s(i) is strictly decreasing between the non-integer index
i = 3/5 and i = 1 — both inside the index domain [0, 2*ny_noguards] =
[0, 2] — so the claimed strict monotonicity over the full domain fails on
a spacing law the code actually produces. -/
theorem sqrtSfunc_nonmonotonic_counterexample :
    sqrtSfuncBothAsserts Real.sqrt (1 / 10) 2 2 1 0 1 0 ∧
      checkMonotonic (sqrtSfuncBoth Real.sqrt (1 / 10) 2 2 1 0 1 0) 0 1 0 ∧
      (0 : ℝ) ≤ 3 / 5 ∧ (3 / 5 : ℝ) < 1 ∧ (1 : ℝ) ≤ 2 ∧
      sqrtSfuncBoth Real.sqrt (1 / 10) 2 2 1 0 1 0 1
        < sqrtSfuncBoth Real.sqrt (1 / 10) 2 2 1 0 1 0 (3 / 5) := by
  refine ⟨?_, ?_, by norm_num, by norm_num, by norm_num, ?_⟩
  · unfold sqrtSfuncBothAsserts
    norm_num
  · intro i h1 h2
    have h1n : (0 : ℤ) ≤ i := by omega
    interval_cases i
    · push_cast
      unfold sqrtSfuncBoth
      norm_num
    · push_cast
      unfold sqrtSfuncBoth
      norm_num
  · unfold sqrtSfuncBoth
    norm_num

/-- Helper: a two-sided derivative for a function that agrees with f on the
left of c and with g on the right, when f and g share value and derivative
at c.  Used to glue the linear guard-cell extensions to the interior
spacing formulas. -/
lemma hasDerivAt_of_piecewise (F f g : ℝ → ℝ) (c d : ℝ)
    (hL : ∀ᶠ y in nhdsWithin c (Set.Iio c), F y = f y)
    (hR : ∀ᶠ y in nhdsWithin c (Set.Ioi c), F y = g y)
    (hFc : F c = f c) (hfg : f c = g c)
    (hf : HasDerivAt f d c) (hg : HasDerivAt g d c) : HasDerivAt F d c := by
  rw [hasDerivAt_iff_tendsto_slope] at hf hg ⊢
  have hsubL : nhdsWithin c (Set.Iio c) ≤ nhdsWithin c {c}ᶜ :=
    nhdsWithin_mono c (fun y hy => ne_of_lt hy)
  have hsubR : nhdsWithin c (Set.Ioi c) ≤ nhdsWithin c {c}ᶜ :=
    nhdsWithin_mono c (fun y hy => ne_of_gt hy)
  have hslopeL : Filter.Tendsto (slope F c) (nhdsWithin c (Set.Iio c)) (nhds d) := by
    refine ((hf.mono_left hsubL).congr' ?_)
    filter_upwards [hL] with y hy
    simp [slope_def_field, hy, hFc]
  have hslopeR : Filter.Tendsto (slope F c) (nhdsWithin c (Set.Ioi c)) (nhds d) := by
    refine ((hg.mono_left hsubR).congr' ?_)
    filter_upwards [hR] with y hy
    simp [slope_def_field, hy, hFc, hfg]
  have hsplit : nhdsWithin c {c}ᶜ
      = nhdsWithin c (Set.Iio c) ⊔ nhdsWithin c (Set.Ioi c) := by
    rw [← nhdsWithin_union, Set.Iio_union_Ioi]
  rw [hsplit]
  exact Filter.tendsto_sup.mpr ⟨hslopeL, hslopeR⟩

section ConvexLemmas

/-- Helper: derivative of the lower linear extension d_lower*i/N_norm. -/
lemma lowExt_hasDerivAt (dl Nn t : ℝ) :
    HasDerivAt (fun i : ℝ => dl * i / Nn) (dl / Nn) t := by
  have h := ((hasDerivAt_id t).const_mul dl).div_const Nn
  simpa using h

/-- Helper: derivative of the upper linear extension
length + d_upper*(i-N)/N_norm. -/
lemma highExt_hasDerivAt (L du N Nn t : ℝ) :
    HasDerivAt (fun i : ℝ => L + du * (i - N) / Nn) (du / Nn) t := by
  have h := ((((hasDerivAt_id t).sub_const N).const_mul du).div_const Nn).const_add L
  simpa using h

/-- Helper: derivative of the convex interior cubic at any point. -/
lemma convexMid_hasDerivAt (dl du L N Nn : ℝ) (hNn : Nn ≠ 0) (t : ℝ) :
    HasDerivAt (convexMid dl du L N Nn)
      ((convexA dl du L N Nn * (t / Nn) ^ 2 + convexB dl du L N Nn * (t / Nn)
        + dl) / Nn) t := by
  have h1 : HasDerivAt (fun i : ℝ => i / Nn) (1 / Nn) t :=
    (hasDerivAt_id t).div_const Nn
  have h3 := (h1.pow 3).const_mul (1 / 3 * convexA dl du L N Nn)
  have h2 := (h1.pow 2).const_mul (1 / 2 * convexB dl du L N Nn)
  have hc := ((hasDerivAt_id t).const_mul dl).div_const Nn
  have hsum := (h3.add h2).add hc
  convert hsum using 1
  push_cast
  field_simp
  ring

/-- Helper: the convex interior cubic vanishes at i = 0. -/
lemma convexMid_zero (dl du L N Nn : ℝ) : convexMid dl du L N Nn 0 = 0 := by
  simp [convexMid]

/-- Helper: the convex interior cubic reaches length at i = N. -/
lemma convexMid_at_N (dl du L N Nn : ℝ) (hN : N ≠ 0) (hNn : Nn ≠ 0) :
    convexMid dl du L N Nn N = L := by
  unfold convexMid convexB convexA
  field_simp
  ring

/-- Helper: the convex s-prime at iN = N/N_norm equals d_upper. -/
lemma convex_sprime_at_N (dl du L N Nn : ℝ) (hN : N ≠ 0) (hNn : Nn ≠ 0) :
    convexA dl du L N Nn * (N / Nn) ^ 2 + convexB dl du L N Nn * (N / Nn) + dl
      = du := by
  unfold convexB convexA
  field_simp
  ring

/-- Helper: under the convex-branch condition the quadratic coefficient a is
nonpositive, so s-prime is concave. -/
lemma convexA_nonpos (dl du L N Nn : ℝ) (hN : 0 < N) (hNn : 0 < Nn)
    (hL : 1 / 2 * (dl + du) * N / Nn ≤ L) :
    convexA dl du L N Nn ≤ 0 := by
  have key : (du + dl) * N ≤ 2 * L * Nn := by
    rw [div_le_iff₀ hNn] at hL
    nlinarith
  have hrw : convexA dl du L N Nn
      = 3 * Nn ^ 2 * ((du + dl) * N - 2 * L * Nn) / N ^ 3 := by
    unfold convexA
    field_simp
    ring
  rw [hrw]
  apply div_nonpos_of_nonpos_of_nonneg
  · nlinarith
  · positivity

/-- Helper: the convex s-prime is strictly positive on [0, N]: it lies above
the chord between its positive endpoint values d_lower and d_upper because
its quadratic coefficient is nonpositive. -/
lemma convex_sprime_pos (dl du L N Nn : ℝ) (hdl : 0 < dl) (hdu : 0 < du)
    (hN : 0 < N) (hNn : 0 < Nn) (ha : convexA dl du L N Nn ≤ 0)
    (t : ℝ) (ht0 : 0 ≤ t) (htN : t ≤ N) :
    0 < convexA dl du L N Nn * (t / Nn) ^ 2 + convexB dl du L N Nn * (t / Nn)
      + dl := by
  have hrw : convexA dl du L N Nn * (t / Nn) ^ 2 + convexB dl du L N Nn * (t / Nn)
      + dl
      = dl * (1 - t / N) + du * (t / N)
        + convexA dl du L N Nn * (t * (t - N)) / Nn ^ 2 := by
    unfold convexB convexA
    field_simp
    ring
  rw [hrw]
  have h1 : 0 ≤ dl * (1 - t / N) := by
    apply mul_nonneg hdl.le
    rw [sub_nonneg, div_le_one hN]
    exact htN
  have h2 : 0 ≤ du * (t / N) := mul_nonneg hdu.le (div_nonneg ht0 hN.le)
  have h3 : 0 ≤ convexA dl du L N Nn * (t * (t - N)) / Nn ^ 2 := by
    apply div_nonneg _ (sq_nonneg Nn)
    have hmp : t * (t - N) ≤ 0 :=
      mul_nonpos_of_nonneg_of_nonpos ht0 (sub_nonpos.mpr htN)
    have := mul_nonneg (neg_nonneg.mpr ha) (neg_nonneg.mpr hmp)
    rwa [neg_mul_neg] at this
  have hpos : 0 < dl * (1 - t / N) + du * (t / N) := by
    rcases lt_or_le t N with hlt | hge
    · have : 0 < dl * (1 - t / N) := by
        apply mul_pos hdl
        rw [sub_pos, div_lt_one hN]
        exact hlt
      linarith
    · have htN' : t = N := le_antisymm htN hge
      subst htN'
      rw [div_self hN.ne']
      norm_num
      exact hdu
  linarith

/-- Helper: the glued convex spacing function has derivative d_lower/N_norm
at index 0. -/
lemma monotonicConvex_hasDerivAt_zero (dl du L N Nn : ℝ) (hN : 0 < N)
    (hNn : Nn ≠ 0) :
    HasDerivAt (monotonicConvex dl du L N Nn) (dl / Nn) 0 := by
  have hlow : ∀ y : ℝ, y < 0 → monotonicConvex dl du L N Nn y = dl * y / Nn := by
    intro y hy
    simp only [monotonicConvex]
    rw [if_pos hy]
  have hmid : ∀ y : ℝ, 0 ≤ y → y ≤ N →
      monotonicConvex dl du L N Nn y = convexMid dl du L N Nn y := by
    intro y hy0 hyN
    simp only [monotonicConvex]
    rw [if_neg (not_lt.mpr hy0), if_neg (not_lt.mpr hyN)]
  have hmid0 : HasDerivAt (convexMid dl du L N Nn) (dl / Nn) 0 := by
    have h := convexMid_hasDerivAt dl du L N Nn hNn 0
    convert h using 1
    norm_num
  exact hasDerivAt_of_piecewise (monotonicConvex dl du L N Nn)
    (fun i => dl * i / Nn) (convexMid dl du L N Nn) 0 (dl / Nn)
    (Filter.eventually_of_mem self_mem_nhdsWithin (fun y hy => hlow y hy))
    (Filter.eventually_of_mem (Ioo_mem_nhdsWithin_Ioi ⟨le_refl 0, hN⟩)
      (fun y hy => hmid y hy.1.le hy.2.le))
    (by rw [hmid 0 le_rfl hN.le, convexMid_zero]; norm_num)
    (by rw [convexMid_zero]; norm_num)
    (lowExt_hasDerivAt dl Nn 0) hmid0

/-- Helper: the glued convex spacing function has derivative d_upper/N_norm
at index N. -/
lemma monotonicConvex_hasDerivAt_N (dl du L N Nn : ℝ) (hN : 0 < N)
    (hNn : Nn ≠ 0) :
    HasDerivAt (monotonicConvex dl du L N Nn) (du / Nn) N := by
  have hmid : ∀ y : ℝ, 0 ≤ y → y ≤ N →
      monotonicConvex dl du L N Nn y = convexMid dl du L N Nn y := by
    intro y hy0 hyN
    simp only [monotonicConvex]
    rw [if_neg (not_lt.mpr hy0), if_neg (not_lt.mpr hyN)]
  have hhigh : ∀ y : ℝ, N < y →
      monotonicConvex dl du L N Nn y = L + du * (y - N) / Nn := by
    intro y hy
    simp only [monotonicConvex]
    rw [if_neg (not_lt.mpr (le_of_lt (lt_trans hN hy))), if_pos hy]
  have hmidN : HasDerivAt (convexMid dl du L N Nn) (du / Nn) N := by
    have h := convexMid_hasDerivAt dl du L N Nn hNn N
    rwa [convex_sprime_at_N dl du L N Nn hN.ne' hNn] at h
  exact hasDerivAt_of_piecewise (monotonicConvex dl du L N Nn)
    (convexMid dl du L N Nn) (fun i => L + du * (i - N) / Nn) N (du / Nn)
    (Filter.eventually_of_mem (Ioo_mem_nhdsWithin_Iio ⟨hN, le_refl N⟩)
      (fun y hy => hmid y hy.1.le hy.2.le))
    (Filter.eventually_of_mem self_mem_nhdsWithin (fun y hy => hhigh y hy))
    (by rw [hmid N hN.le le_rfl])
    (by rw [convexMid_at_N dl du L N Nn hN.ne' hNn]; ring)
    hmidN (highExt_hasDerivAt L du N Nn N)

/-- Helper: a positive chord between dl and du survives a downward parabolic
correction of coefficient at most (dl+du)/2. -/
lemma chord_dip_pos (dl du c t : ℝ) (hdl : 0 < dl) (hdu : 0 < du)
    (ht0 : 0 ≤ t) (ht1 : t ≤ 1) (hc : c ≤ (dl + du) / 2) :
    0 < dl * (1 - t) + du * t - c * (t * (1 - t)) := by
  have hv : 0 ≤ 1 - t := by linarith
  have hX : 0 ≤ t * (1 - t) := mul_nonneg ht0 hv
  have h1 : c * (t * (1 - t)) ≤ (dl + du) / 2 * (t * (1 - t)) :=
    mul_le_mul_of_nonneg_right hc hX
  have h2 : dl * (t * (1 - t)) ≤ dl * (1 - t) := by
    nlinarith [mul_nonneg hdl.le (mul_nonneg hv hv)]
  have h3 : du * (t * (1 - t)) ≤ du * t := by
    nlinarith [mul_nonneg hdu.le (mul_nonneg ht0 ht0)]
  have h4 : 0 < dl * (1 - t) + du * t := by
    rcases lt_or_le t 1 with h | h
    · have ha : 0 < dl * (1 - t) := mul_pos hdl (by linarith)
      have hb : 0 ≤ du * t := mul_nonneg hdu.le ht0
      linarith
    · have ht1' : t = 1 := le_antisymm ht1 h
      rw [ht1']
      simpa using hdu
  linarith

/-- Helper: the convex s-prime is strictly positive on [0, N] under the
branch-selection condition actually used by the code (length at least the
linear-spacing integral minus the 1e-8 relative tolerance): the quadratic
coefficient a may then be slightly positive, but the dip it causes is
bounded by 3e-8 times the chord and cannot reach zero. -/
lemma convex_sprime_pos_weak (dl du L N Nn : ℝ) (hdl : 0 < dl) (hdu : 0 < du)
    (hN : 0 < N) (hNn : 0 < Nn) (hLpos : 0 < L)
    (hL : 1 / 2 * (du + dl) * N / Nn - 1 / 10 ^ 8 * L ≤ L)
    (t : ℝ) (ht0 : 0 ≤ t) (htN : t ≤ N) :
    0 < convexA dl du L N Nn * (t / Nn) ^ 2 + convexB dl du L N Nn * (t / Nn)
      + dl := by
  rcases le_or_lt (convexA dl du L N Nn) 0 with ha | ha
  · exact convex_sprime_pos dl du L N Nn hdl hdu hN hNn ha t ht0 htN
  · have hArw : convexA dl du L N Nn
        = 3 * Nn ^ 2 * ((du + dl) * N - 2 * L * Nn) / N ^ 3 := by
      unfold convexA
      field_simp
      ring
    have hDpos : 0 < (du + dl) * N - 2 * L * Nn := by
      by_contra hcon
      push_neg at hcon
      have hA0 : convexA dl du L N Nn ≤ 0 := by
        rw [hArw]
        apply div_nonpos_of_nonpos_of_nonneg
        · nlinarith [sq_nonneg Nn]
        · positivity
      linarith
    have h1 : 1 / 2 * (du + dl) * N ≤ (L + 1 / 10 ^ 8 * L) * Nn :=
      (div_le_iff₀ hNn).mp (by linarith)
    have hDsmall : (du + dl) * N - 2 * L * Nn ≤ 2 * (1 / 10 ^ 8) * L * Nn := by
      nlinarith [h1]
    have hLN : 2 * L * Nn < (du + dl) * N := by linarith
    have hceq : convexA dl du L N Nn * N ^ 2 / Nn ^ 2
        = 3 * ((du + dl) * N - 2 * L * Nn) / N := by
      rw [hArw]
      field_simp
      ring
    have hcbound : convexA dl du L N Nn * N ^ 2 / Nn ^ 2 ≤ (dl + du) / 2 := by
      rw [hceq, div_le_iff₀ hN]
      linarith [hDsmall, hLN, mul_pos hLpos hNn]
    have ht0' : 0 ≤ t / N := div_nonneg ht0 hN.le
    have ht1' : t / N ≤ 1 := (div_le_one hN).mpr htN
    have key := chord_dip_pos dl du (convexA dl du L N Nn * N ^ 2 / Nn ^ 2)
      (t / N) hdl hdu ht0' ht1' hcbound
    have hrw : convexA dl du L N Nn * (t / Nn) ^ 2
        + convexB dl du L N Nn * (t / Nn) + dl
        = dl * (1 - t / N) + du * (t / N)
          - convexA dl du L N Nn * N ^ 2 / Nn ^ 2 * (t / N * (1 - t / N)) := by
      unfold convexB convexA
      field_simp
      ring
    rw [hrw]
    exact key

/-- Helper: the glued convex spacing function has strictly positive
derivative everywhere under the code branch-selection condition. -/
lemma monotonicConvex_deriv_pos (dl du L N Nn : ℝ) (hdl : 0 < dl)
    (hdu : 0 < du) (hN : 0 < N) (hNn : 0 < Nn) (hLpos : 0 < L)
    (hL : 1 / 2 * (du + dl) * N / Nn - 1 / 10 ^ 8 * L ≤ L) :
    ∀ x : ℝ, 0 < deriv (monotonicConvex dl du L N Nn) x := by
  have hlow : ∀ y : ℝ, y < 0 → monotonicConvex dl du L N Nn y = dl * y / Nn := by
    intro y hy
    simp only [monotonicConvex]
    rw [if_pos hy]
  have hmid : ∀ y : ℝ, 0 ≤ y → y ≤ N →
      monotonicConvex dl du L N Nn y = convexMid dl du L N Nn y := by
    intro y hy0 hyN
    simp only [monotonicConvex]
    rw [if_neg (not_lt.mpr hy0), if_neg (not_lt.mpr hyN)]
  have hhigh : ∀ y : ℝ, N < y →
      monotonicConvex dl du L N Nn y = L + du * (y - N) / Nn := by
    intro y hy
    simp only [monotonicConvex]
    rw [if_neg (not_lt.mpr (le_of_lt (lt_trans hN hy))), if_pos hy]
  intro x
  rcases lt_trichotomy x 0 with hx | hx | hx
  · have hEq : monotonicConvex dl du L N Nn =ᶠ[nhds x]
        (fun i => dl * i / Nn) :=
      Filter.eventuallyEq_of_mem (Iio_mem_nhds hx) (fun y hy => hlow y hy)
    have hd := (lowExt_hasDerivAt dl Nn x).congr_of_eventuallyEq hEq
    rw [hd.deriv]
    positivity
  · rw [hx, (monotonicConvex_hasDerivAt_zero dl du L N Nn hN hNn.ne').deriv]
    positivity
  · rcases lt_trichotomy x N with hxN | hxN | hxN
    · have hEq : monotonicConvex dl du L N Nn =ᶠ[nhds x]
          convexMid dl du L N Nn :=
        Filter.eventuallyEq_of_mem (Ioo_mem_nhds hx hxN)
          (fun y hy => hmid y hy.1.le hy.2.le)
      have hd := (convexMid_hasDerivAt dl du L N Nn hNn.ne'
        x).congr_of_eventuallyEq hEq
      rw [hd.deriv]
      exact div_pos
        (convex_sprime_pos_weak dl du L N Nn hdl hdu hN hNn hLpos hL x
          hx.le hxN.le) hNn
    · rw [hxN, (monotonicConvex_hasDerivAt_N dl du L N Nn hN hNn.ne').deriv]
      positivity
    · have hEq : monotonicConvex dl du L N Nn =ᶠ[nhds x]
          (fun i => L + du * (i - N) / Nn) :=
        Filter.eventuallyEq_of_mem (Ioi_mem_nhds hxN) (fun y hy => hhigh y hy)
      have hd := (highExt_hasDerivAt L du N Nn x).congr_of_eventuallyEq hEq
      rw [hd.deriv]
      positivity

end ConvexLemmas

section ConcaveLemmas

/-- Helper: the concave coefficient l2 (resp. r2) is positive and solves its
defining quadratic d*q^2 + d*(N/N_norm)*q = l1*(N/N_norm). -/
lemma concaveQ_pos_identity (d N Nn l1 : ℝ) (hd : 0 < d) (hN : 0 < N)
    (hNn : 0 < Nn) (hl1 : 0 < l1) :
    0 < concaveQ Real.sqrt d N Nn l1 ∧
      d * concaveQ Real.sqrt d N Nn l1 ^ 2
        + d * (N / Nn) * concaveQ Real.sqrt d N Nn l1 = l1 * (N / Nn) := by
  have hDnn : (0 : ℝ) ≤ (d * N / Nn) ^ 2 + 4 * d * l1 * N / Nn := by positivity
  have hS : Real.sqrt ((d * N / Nn) ^ 2 + 4 * d * l1 * N / Nn) ^ 2
      = (d * N / Nn) ^ 2 + 4 * d * l1 * N / Nn := Real.sq_sqrt hDnn
  have hSgt : d * N / Nn < Real.sqrt ((d * N / Nn) ^ 2 + 4 * d * l1 * N / Nn) := by
    have h1 : (d * N / Nn) ^ 2 < (d * N / Nn) ^ 2 + 4 * d * l1 * N / Nn := by
      have hpos : 0 < 4 * d * l1 * N / Nn := by positivity
      linarith
    exact (Real.lt_sqrt (by positivity)).mpr h1
  unfold concaveQ
  generalize hgen : Real.sqrt ((d * N / Nn) ^ 2 + 4 * d * l1 * N / Nn) = s
    at hS hSgt
  constructor
  · apply div_pos _ (by positivity)
    have hrw : -d * N / Nn = -(d * N / Nn) := by ring
    rw [hrw]
    linarith
  · have hzero : d * ((-d * N / Nn + s) / (2 * d)) ^ 2
        + d * (N / Nn) * ((-d * N / Nn + s) / (2 * d)) - l1 * (N / Nn)
        = (s ^ 2 - ((d * N / Nn) ^ 2 + 4 * d * l1 * N / Nn)) / (4 * d) := by
      field_simp
      ring
    have hfin : d * ((-d * N / Nn + s) / (2 * d)) ^ 2
        + d * (N / Nn) * ((-d * N / Nn + s) / (2 * d)) - l1 * (N / Nn) = 0 := by
      rw [hzero, hS]
      simp
    linarith

/-- Helper: from the quadratic identity, l1/(q + x) = l1/q - d (the
cross-boundary cancellation that gives the concave s-prime its exact
endpoint values). -/
lemma concave_div_identity (d q x l1 : ℝ) (hq : 0 < q) (hx : 0 < x)
    (hiden : d * q ^ 2 + d * x * q = l1 * x) :
    l1 / (q + x) = l1 / q - d := by
  have hq' : q ≠ 0 := hq.ne'
  have hqx : q + x ≠ 0 := by positivity
  field_simp
  linear_combination hiden

/-- Helper: the concave interior vanishes at i = 0. -/
lemma concaveMid_zero (l1 l2 l3 r2 r3 N Nn : ℝ) :
    concaveMid Real.log l1 l2 l3 r2 r3 N Nn 0 = 0 := by
  unfold concaveMid
  norm_num

/-- Helper: at i = N the concave interior equals length, given the integral
constraint. -/
lemma concaveMid_at_N (l1 l2 l3 r2 r3 length N Nn : ℝ) (hl2 : 0 < l2)
    (hr2 : 0 < r2) (hN : 0 < N) (hNn : 0 < Nn)
    (hcon : l1 * Real.log (N / (Nn * l2) + 1) - l3 * N / Nn
      + l1 * Real.log (N / (Nn * r2) + 1) - r3 * N / Nn - length = 0) :
    concaveMid Real.log l1 l2 l3 r2 r3 N Nn N = length := by
  unfold concaveMid
  have h1 : N / Nn / l2 = N / (Nn * l2) := by rw [div_div]
  have hNnr2 : (0 : ℝ) < Nn * r2 := by positivity
  have hden : (0 : ℝ) < Nn * r2 + N := by positivity
  have h2 : 1 - N / (Nn * (r2 + N / Nn)) = Nn * r2 / (Nn * r2 + N) := by
    rw [show Nn * (r2 + N / Nn) = Nn * r2 + N by field_simp; ring]
    field_simp
  have h3 : Real.log (Nn * r2 / (Nn * r2 + N))
      = Real.log (Nn * r2) - Real.log (Nn * r2 + N) :=
    Real.log_div hNnr2.ne' hden.ne'
  have h4 : N / (Nn * r2) + 1 = (Nn * r2 + N) / (Nn * r2) := by
    field_simp
    ring
  have h5 : Real.log (N / (Nn * r2) + 1)
      = Real.log (Nn * r2 + N) - Real.log (Nn * r2) := by
    rw [h4, Real.log_div hden.ne' hNnr2.ne']
  rw [h1, h2, h3]
  rw [h5] at hcon
  linarith

/-- Helper: derivative of the concave interior at any point where both log
arguments are nonzero. -/
lemma concaveMid_hasDerivAt (l1 l2 l3 r2 r3 N Nn : ℝ) (t : ℝ)
    (hu : t / Nn / l2 + 1 ≠ 0) (hv : 1 - t / (Nn * (r2 + N / Nn)) ≠ 0) :
    HasDerivAt (concaveMid Real.log l1 l2 l3 r2 r3 N Nn)
      (l1 * ((1 / Nn / l2) / (t / Nn / l2 + 1)) - l3 / Nn
        - l1 * (-(1 / (Nn * (r2 + N / Nn))) / (1 - t / (Nn * (r2 + N / Nn))))
        - r3 / Nn) t := by
  have hid := hasDerivAt_id t
  have hu' : HasDerivAt (fun i : ℝ => i / Nn / l2 + 1) (1 / Nn / l2) t :=
    ((hid.div_const Nn).div_const l2).add_const 1
  have hterm1 := (hu'.log hu).const_mul l1
  have hterm2 : HasDerivAt (fun i : ℝ => l3 * i / Nn) (l3 / Nn) t :=
    lowExt_hasDerivAt l3 Nn t
  have hv' : HasDerivAt (fun i : ℝ => 1 - i / (Nn * (r2 + N / Nn)))
      (-(1 / (Nn * (r2 + N / Nn)))) t := by
    have h := (hid.div_const (Nn * (r2 + N / Nn))).const_sub 1
    simpa using h
  have hterm3 := (hv'.log hv).const_mul l1
  have hterm4 : HasDerivAt (fun i : ℝ => r3 * i / Nn) (r3 / Nn) t :=
    lowExt_hasDerivAt r3 Nn t
  exact ((hterm1.sub hterm2).sub hterm3).sub hterm4

/-- Helper: the concave interior, with its coefficients tied to l2 and r2
by the source formulas, has derivative d_lower/N_norm at index 0 (the r2
quadratic identity makes the upper-boundary terms cancel exactly). -/
lemma concaveMid_hasDerivAt_zero (d_lower d_upper l1 l2 r2 N Nn : ℝ)
    (hl2 : 0 < l2) (hr2 : 0 < r2) (hN : 0 < N) (hNn : 0 < Nn)
    (hdivr : l1 / (r2 + N / Nn) = l1 / r2 - d_upper) :
    HasDerivAt (concaveMid Real.log l1 l2 (l1 / l2 - d_lower) r2
      (l1 / r2 - d_upper) N Nn) (d_lower / Nn) 0 := by
  have hu : (0 : ℝ) / Nn / l2 + 1 ≠ 0 := by norm_num
  have hv : 1 - (0 : ℝ) / (Nn * (r2 + N / Nn)) ≠ 0 := by norm_num
  have h := concaveMid_hasDerivAt l1 l2 (l1 / l2 - d_lower) r2
    (l1 / r2 - d_upper) N Nn 0 hu hv
  have hr2x : r2 + N / Nn ≠ 0 := by positivity
  have hval : l1 * ((1 / Nn / l2) / ((0 : ℝ) / Nn / l2 + 1))
      - (l1 / l2 - d_lower) / Nn
      - l1 * (-(1 / (Nn * (r2 + N / Nn)))
        / (1 - (0 : ℝ) / (Nn * (r2 + N / Nn))))
      - (l1 / r2 - d_upper) / Nn = d_lower / Nn := by
    rw [← hdivr]
    field_simp
    ring
  rwa [hval] at h

/-- Helper: the concave interior, with its coefficients tied to l2 and r2
by the source formulas, has derivative d_upper/N_norm at index N (the l2
quadratic identity makes the lower-boundary terms cancel exactly). -/
lemma concaveMid_hasDerivAt_at_N (d_lower d_upper l1 l2 r2 N Nn : ℝ)
    (hl2 : 0 < l2) (hr2 : 0 < r2) (hN : 0 < N) (hNn : 0 < Nn)
    (hdivl : l1 / (l2 + N / Nn) = l1 / l2 - d_lower) :
    HasDerivAt (concaveMid Real.log l1 l2 (l1 / l2 - d_lower) r2
      (l1 / r2 - d_upper) N Nn) (d_upper / Nn) N := by
  have hu : N / Nn / l2 + 1 ≠ 0 := by positivity
  have hfrac : N / (Nn * (r2 + N / Nn)) < 1 := by
    rw [show Nn * (r2 + N / Nn) = Nn * r2 + N by field_simp; ring]
    rw [div_lt_one (by positivity)]
    have := mul_pos hNn hr2
    linarith
  have hv : 1 - N / (Nn * (r2 + N / Nn)) ≠ 0 := sub_ne_zero.mpr hfrac.ne'
  have h := concaveMid_hasDerivAt l1 l2 (l1 / l2 - d_lower) r2
    (l1 / r2 - d_upper) N Nn N hu hv
  have hr2x : r2 + N / Nn ≠ 0 := by positivity
  have hl2x : l2 + N / Nn ≠ 0 := by positivity
  have hval : l1 * ((1 / Nn / l2) / (N / Nn / l2 + 1))
      - (l1 / l2 - d_lower) / Nn
      - l1 * (-(1 / (Nn * (r2 + N / Nn)))
        / (1 - N / (Nn * (r2 + N / Nn))))
      - (l1 / r2 - d_upper) / Nn = d_upper / Nn := by
    rw [← hdivl]
    field_simp
    ring
  rwa [hval] at h

/-- Helper: the concave s-prime is strictly positive for 0 <= t < N: each
of its two log-derivative terms dominates the corresponding linear
coefficient, the lower one strictly below N and the upper one weakly above
0, by the cross-boundary cancellation identities. -/
lemma concave_sprime_pos (d_lower d_upper l1 l2 r2 N Nn t : ℝ)
    (hl1 : 0 < l1) (hl2 : 0 < l2) (hr2 : 0 < r2) (hN : 0 < N) (hNn : 0 < Nn)
    (hdivl : l1 / (l2 + N / Nn) = l1 / l2 - d_lower)
    (hdivr : l1 / (r2 + N / Nn) = l1 / r2 - d_upper)
    (ht0 : 0 ≤ t) (htN : t < N) :
    0 < l1 * ((1 / Nn / l2) / (t / Nn / l2 + 1)) - (l1 / l2 - d_lower) / Nn
      - l1 * (-(1 / (Nn * (r2 + N / Nn))) / (1 - t / (Nn * (r2 + N / Nn))))
      - (l1 / r2 - d_upper) / Nn := by
  have hNn' : Nn ≠ 0 := hNn.ne'
  have hl2' : l2 ≠ 0 := hl2.ne'
  have hr2' : r2 ≠ 0 := hr2.ne'
  have hden1 : 0 < Nn * l2 + t := by
    have := mul_pos hNn hl2
    linarith
  have hdenN : 0 < Nn * l2 + N := by positivity
  have hden2 : 0 < Nn * r2 + N - t := by
    have := mul_pos hNn hr2
    linarith
  have hden2N : 0 < Nn * r2 + N := by positivity
  have hne1 : t / Nn / l2 + 1 ≠ 0 := by
    have h0 : 0 ≤ t / Nn / l2 := div_nonneg (div_nonneg ht0 hNn.le) hl2.le
    exact ne_of_gt (by linarith)
  have hden1' : Nn * l2 + t ≠ 0 := hden1.ne'
  have e1 : l1 * ((1 / Nn / l2) / (t / Nn / l2 + 1)) = l1 / (Nn * l2 + t) := by
    rw [← mul_div_assoc, div_eq_div_iff hne1 hden1']
    field_simp
    exact Or.inl (add_comm _ _)
  have hrwden : Nn * (r2 + N / Nn) = Nn * r2 + N := by
    field_simp
    ring
  have e2 : l1 * (-(1 / (Nn * (r2 + N / Nn)))
      / (1 - t / (Nn * (r2 + N / Nn)))) = -(l1 / (Nn * r2 + N - t)) := by
    rw [hrwden]
    have hlt : t / (Nn * r2 + N) < 1 := (div_lt_one hden2N).mpr (by linarith)
    have hne2 : (1 : ℝ) - t / (Nn * r2 + N) ≠ 0 := sub_ne_zero.mpr hlt.ne'
    have hden2' : Nn * r2 + N - t ≠ 0 := hden2.ne'
    have hden2N' : Nn * r2 + N ≠ 0 := hden2N.ne'
    field_simp
    ring
  have hl2x : l2 + N / Nn ≠ 0 := by positivity
  have hr2x : r2 + N / Nn ≠ 0 := by positivity
  have f1 : l1 / (l2 + N / Nn) / Nn = l1 / (Nn * l2 + N) := by
    rw [div_div]
    congr 1
    field_simp
    ring
  have f2 : l1 / (r2 + N / Nn) / Nn = l1 / (Nn * r2 + N) := by
    rw [div_div]
    congr 1
    field_simp
    ring
  rw [e1, e2, ← hdivl, ← hdivr, f1, f2]
  have g1 : l1 / (Nn * l2 + N) < l1 / (Nn * l2 + t) := by
    rw [div_lt_div_iff₀ hdenN hden1]
    nlinarith [mul_pos hl1 (show (0 : ℝ) < N - t by linarith)]
  have g2 : l1 / (Nn * r2 + N) ≤ l1 / (Nn * r2 + N - t) := by
    rw [div_le_div_iff₀ hden2N hden2]
    nlinarith [mul_nonneg hl1.le ht0]
  linarith

/-- Helper: the glued concave spacing function has strictly positive
derivative everywhere, given a positive exact root l1 of the integral
constraint. -/
lemma monotonicConcave_deriv_pos (d_lower d_upper length N Nn l1 : ℝ)
    (hdl : 0 < d_lower) (hdu : 0 < d_upper) (hN : 0 < N) (hNn : 0 < Nn)
    (hl1 : 0 < l1)
    (hcon : concaveConstraint Real.sqrt Real.log d_lower d_upper length N Nn
      l1 = 0) :
    ∀ x : ℝ,
      0 < deriv (monotonicConcave Real.sqrt Real.log d_lower d_upper length N
        Nn l1) x := by
  obtain ⟨hl2pos, hl2id⟩ := concaveQ_pos_identity d_lower N Nn l1 hdl hN hNn hl1
  obtain ⟨hr2pos, hr2id⟩ := concaveQ_pos_identity d_upper N Nn l1 hdu hN hNn hl1
  have hxpos : (0 : ℝ) < N / Nn := by positivity
  have hdivl := concave_div_identity d_lower
    (concaveQ Real.sqrt d_lower N Nn l1) (N / Nn) l1 hl2pos hxpos hl2id
  have hdivr := concave_div_identity d_upper
    (concaveQ Real.sqrt d_upper N Nn l1) (N / Nn) l1 hr2pos hxpos hr2id
  simp only [concaveConstraint] at hcon
  have hmidC : ∀ y : ℝ, 0 ≤ y → y ≤ N →
      monotonicConcave Real.sqrt Real.log d_lower d_upper length N Nn l1 y
        = concaveMid Real.log l1 (concaveQ Real.sqrt d_lower N Nn l1)
            (l1 / concaveQ Real.sqrt d_lower N Nn l1 - d_lower)
            (concaveQ Real.sqrt d_upper N Nn l1)
            (l1 / concaveQ Real.sqrt d_upper N Nn l1 - d_upper) N Nn y := by
    intro y hy0 hyN
    simp only [monotonicConcave]
    rw [if_neg (not_lt.mpr hy0), if_neg (not_lt.mpr hyN)]
  have hlowC : ∀ y : ℝ, y < 0 →
      monotonicConcave Real.sqrt Real.log d_lower d_upper length N Nn l1 y
        = d_lower * y / Nn := by
    intro y hy
    simp only [monotonicConcave]
    rw [if_pos hy]
  have hhighC : ∀ y : ℝ, N < y →
      monotonicConcave Real.sqrt Real.log d_lower d_upper length N Nn l1 y
        = length + d_upper * (y - N) / Nn := by
    intro y hy
    simp only [monotonicConcave]
    rw [if_neg (not_lt.mpr (le_of_lt (lt_trans hN hy))), if_pos hy]
  have hatN : concaveMid Real.log l1 (concaveQ Real.sqrt d_lower N Nn l1)
      (l1 / concaveQ Real.sqrt d_lower N Nn l1 - d_lower)
      (concaveQ Real.sqrt d_upper N Nn l1)
      (l1 / concaveQ Real.sqrt d_upper N Nn l1 - d_upper) N Nn N = length :=
    concaveMid_at_N l1 _ _ _ _ length N Nn hl2pos hr2pos hN hNn hcon
  intro x
  rcases lt_trichotomy x 0 with hx | hx | hx
  · have hEq : monotonicConcave Real.sqrt Real.log d_lower d_upper length N Nn
        l1 =ᶠ[nhds x] (fun i => d_lower * i / Nn) :=
      Filter.eventuallyEq_of_mem (Iio_mem_nhds hx) (fun y hy => hlowC y hy)
    have hd := (lowExt_hasDerivAt d_lower Nn x).congr_of_eventuallyEq hEq
    rw [hd.deriv]
    positivity
  · have hd0 := concaveMid_hasDerivAt_zero d_lower d_upper l1
      (concaveQ Real.sqrt d_lower N Nn l1)
      (concaveQ Real.sqrt d_upper N Nn l1) N Nn hl2pos hr2pos hN hNn hdivr
    have hglue := hasDerivAt_of_piecewise
      (monotonicConcave Real.sqrt Real.log d_lower d_upper length N Nn l1)
      (fun i => d_lower * i / Nn)
      (concaveMid Real.log l1 (concaveQ Real.sqrt d_lower N Nn l1)
        (l1 / concaveQ Real.sqrt d_lower N Nn l1 - d_lower)
        (concaveQ Real.sqrt d_upper N Nn l1)
        (l1 / concaveQ Real.sqrt d_upper N Nn l1 - d_upper) N Nn)
      0 (d_lower / Nn)
      (Filter.eventually_of_mem self_mem_nhdsWithin (fun y hy => hlowC y hy))
      (Filter.eventually_of_mem (Ioo_mem_nhdsWithin_Ioi ⟨le_refl 0, hN⟩)
        (fun y hy => hmidC y hy.1.le hy.2.le))
      (by rw [hmidC 0 le_rfl hN.le, concaveMid_zero]; norm_num)
      (by rw [concaveMid_zero]; norm_num)
      (lowExt_hasDerivAt d_lower Nn 0) hd0
    rw [hx, hglue.deriv]
    positivity
  · rcases lt_trichotomy x N with hxN | hxN | hxN
    · have hEq : monotonicConcave Real.sqrt Real.log d_lower d_upper length N
          Nn l1 =ᶠ[nhds x]
          concaveMid Real.log l1 (concaveQ Real.sqrt d_lower N Nn l1)
            (l1 / concaveQ Real.sqrt d_lower N Nn l1 - d_lower)
            (concaveQ Real.sqrt d_upper N Nn l1)
            (l1 / concaveQ Real.sqrt d_upper N Nn l1 - d_upper) N Nn :=
        Filter.eventuallyEq_of_mem (Ioo_mem_nhds hx hxN)
          (fun y hy => hmidC y hy.1.le hy.2.le)
      have hu : x / Nn / (concaveQ Real.sqrt d_lower N Nn l1) + 1 ≠ 0 := by
        have h0 : 0 ≤ x / Nn / (concaveQ Real.sqrt d_lower N Nn l1) :=
          div_nonneg (div_nonneg hx.le hNn.le) hl2pos.le
        exact ne_of_gt (by linarith)
      have hv : 1 - x / (Nn * (concaveQ Real.sqrt d_upper N Nn l1 + N / Nn))
          ≠ 0 := by
        rw [show Nn * (concaveQ Real.sqrt d_upper N Nn l1 + N / Nn)
            = Nn * concaveQ Real.sqrt d_upper N Nn l1 + N by field_simp; ring]
        have hdpos : 0 < Nn * concaveQ Real.sqrt d_upper N Nn l1 + N := by
          have := mul_pos hNn hr2pos
          linarith
        have hlt : x / (Nn * concaveQ Real.sqrt d_upper N Nn l1 + N) < 1 := by
          rw [div_lt_one hdpos]
          have := mul_pos hNn hr2pos
          linarith
        exact sub_ne_zero.mpr hlt.ne'
      have hd := (concaveMid_hasDerivAt l1
        (concaveQ Real.sqrt d_lower N Nn l1)
        (l1 / concaveQ Real.sqrt d_lower N Nn l1 - d_lower)
        (concaveQ Real.sqrt d_upper N Nn l1)
        (l1 / concaveQ Real.sqrt d_upper N Nn l1 - d_upper) N Nn x hu
        hv).congr_of_eventuallyEq hEq
      rw [hd.deriv]
      exact concave_sprime_pos d_lower d_upper l1
        (concaveQ Real.sqrt d_lower N Nn l1)
        (concaveQ Real.sqrt d_upper N Nn l1) N Nn x hl1 hl2pos hr2pos hN hNn
        hdivl hdivr hx.le hxN
    · have hdN := concaveMid_hasDerivAt_at_N d_lower d_upper l1
        (concaveQ Real.sqrt d_lower N Nn l1)
        (concaveQ Real.sqrt d_upper N Nn l1) N Nn hl2pos hr2pos hN hNn hdivl
      have hglue := hasDerivAt_of_piecewise
        (monotonicConcave Real.sqrt Real.log d_lower d_upper length N Nn l1)
        (concaveMid Real.log l1 (concaveQ Real.sqrt d_lower N Nn l1)
          (l1 / concaveQ Real.sqrt d_lower N Nn l1 - d_lower)
          (concaveQ Real.sqrt d_upper N Nn l1)
          (l1 / concaveQ Real.sqrt d_upper N Nn l1 - d_upper) N Nn)
        (fun i => length + d_upper * (i - N) / Nn) N (d_upper / Nn)
        (Filter.eventually_of_mem (Ioo_mem_nhdsWithin_Iio ⟨hN, le_refl N⟩)
          (fun y hy => hmidC y hy.1.le hy.2.le))
        (Filter.eventually_of_mem self_mem_nhdsWithin (fun y hy => hhighC y hy))
        (by rw [hmidC N hN.le le_rfl])
        (by rw [hatN]; ring)
        hdN (highExt_hasDerivAt length d_upper N Nn N)
      rw [hxN, hglue.deriv]
      positivity
    · have hEq : monotonicConcave Real.sqrt Real.log d_lower d_upper length N
          Nn l1 =ᶠ[nhds x] (fun i => length + d_upper * (i - N) / Nn) :=
        Filter.eventuallyEq_of_mem (Ioi_mem_nhds hxN) (fun y hy => hhighC y hy)
      have hd := (highExt_hasDerivAt length d_upper N Nn
        x).congr_of_eventuallyEq hEq
      rw [hd.deriv]
      positivity

end ConcaveLemmas

/-- C4 amended: the monotonic-family spacing law — whichever branch the
constructor selects, with the brentq parameter l1 required to be a positive
exact root of the integral constraint whenever the concave branch is
selected — is strictly increasing on the whole real index line, in
particular on the full guard-cell-extended domain.  (The sqrt family only
passes the integer-sample check of _checkMonotonic and can decrease between
samples, as the counterexample shows.) -/
theorem monotonic_spacing_strictMono (d_lower d_upper length N Nn l1 : ℝ)
    (hdl : 0 < d_lower) (hdu : 0 < d_upper) (hN : 0 < N) (hNn : 0 < Nn)
    (hLpos : 0 < length)
    (hroot : length < 1 / 2 * (d_upper + d_lower) * N / Nn
        - 1 / 10 ^ 8 * length →
      0 < l1 ∧ concaveConstraint Real.sqrt Real.log d_lower d_upper length N Nn
        l1 = 0) :
    StrictMono (getMonotonicPoloidalDistanceFunc Real.sqrt Real.log length N Nn
      d_lower d_upper l1) := by
  by_cases hbr : length < 1 / 2 * (d_upper + d_lower) * N / Nn
      - 1 / 10 ^ 8 * length
  case neg =>
    have hF : getMonotonicPoloidalDistanceFunc Real.sqrt Real.log length N Nn
        d_lower d_upper l1 = monotonicConvex d_lower d_upper length N Nn := by
      unfold getMonotonicPoloidalDistanceFunc
      rw [if_neg hbr]
    rw [hF]
    exact strictMono_of_deriv_pos (monotonicConvex_deriv_pos d_lower d_upper
      length N Nn hdl hdu hN hNn hLpos (not_lt.mp hbr))
  case pos =>
    obtain ⟨hl1, hcon⟩ := hroot hbr
    have hF : getMonotonicPoloidalDistanceFunc Real.sqrt Real.log length N Nn
        d_lower d_upper l1
        = monotonicConcave Real.sqrt Real.log d_lower d_upper length N Nn
          l1 := by
      unfold getMonotonicPoloidalDistanceFunc
      rw [if_pos hbr]
    rw [hF]
    exact strictMono_of_deriv_pos (monotonicConcave_deriv_pos d_lower d_upper
      length N Nn l1 hdl hdu hN hNn hl1 hcon)

/-- Witness for the amended C4 theorem at the S3 scenario values
(N = N_norm = 16, length = 10, d_lower = 0.1, d_upper = 2; the concave
branch is not selected there, so the root condition is vacuous). -/
theorem monotonic_spacing_strictMono_witness :
    ((0 : ℝ) < 1 / 10 ∧ (0 : ℝ) < 2 ∧ (0 : ℝ) < 16 ∧ (0 : ℝ) < 10 ∧
      ¬((10 : ℝ) < 1 / 2 * (2 + 1 / 10) * 16 / 16 - 1 / 10 ^ 8 * 10)) ∧
    StrictMono (getMonotonicPoloidalDistanceFunc Real.sqrt Real.log 10 16 16
      (1 / 10) 2 1) :=
  ⟨⟨by norm_num, by norm_num, by norm_num, by norm_num, by norm_num⟩,
    monotonic_spacing_strictMono (1 / 10) 2 10 16 16 1 (by norm_num)
      (by norm_num) (by norm_num) (by norm_num) (by norm_num)
      (fun h => absurd h (by norm_num))⟩

/-- C3: the spacing function returned by getMonotonicPoloidalDistanceFunc
satisfies, for all positive d_lower, d_upper and length (with l1 the
brentq parameter, required to be an exact positive root of the integral
constraint whenever the concave branch is selected): s(0) = 0, s(N) =
length, s has derivative d_lower/N_norm at index 0 and d_upper/N_norm at
index N (i.e. ds/diN = d_lower and d_upper in the normalised variable iN =
i/N_norm), s(i) = d_lower*i/N_norm for i < 0 and s(i) = length +
d_upper*(i-N)/N_norm for i > N, and the convex (quadratic-s-prime) branch
is used whenever length >= 1/2*(d_lower+d_upper)*N/N_norm. -/
theorem getMonotonicPoloidalDistanceFunc_endpoints
    (d_lower d_upper length N Nn l1 : ℝ)
    (hdl : 0 < d_lower) (hdu : 0 < d_upper) (hN : 0 < N) (hNn : 0 < Nn)
    (hLpos : 0 < length)
    (hroot : length < 1 / 2 * (d_upper + d_lower) * N / Nn
        - 1 / 10 ^ 8 * length →
      0 < l1 ∧ concaveConstraint Real.sqrt Real.log d_lower d_upper length N Nn
        l1 = 0) :
    getMonotonicPoloidalDistanceFunc Real.sqrt Real.log length N Nn d_lower
        d_upper l1 0 = 0 ∧
    getMonotonicPoloidalDistanceFunc Real.sqrt Real.log length N Nn d_lower
        d_upper l1 N = length ∧
    HasDerivAt (getMonotonicPoloidalDistanceFunc Real.sqrt Real.log length N Nn
        d_lower d_upper l1) (d_lower / Nn) 0 ∧
    HasDerivAt (getMonotonicPoloidalDistanceFunc Real.sqrt Real.log length N Nn
        d_lower d_upper l1) (d_upper / Nn) N ∧
    (∀ i : ℝ, i < 0 →
      getMonotonicPoloidalDistanceFunc Real.sqrt Real.log length N Nn d_lower
        d_upper l1 i = d_lower * i / Nn) ∧
    (∀ i : ℝ, N < i →
      getMonotonicPoloidalDistanceFunc Real.sqrt Real.log length N Nn d_lower
        d_upper l1 i = length + d_upper * (i - N) / Nn) ∧
    (1 / 2 * (d_lower + d_upper) * N / Nn ≤ length →
      getMonotonicPoloidalDistanceFunc Real.sqrt Real.log length N Nn d_lower
        d_upper l1 = monotonicConvex d_lower d_upper length N Nn) := by
  by_cases hbr : length < 1 / 2 * (d_upper + d_lower) * N / Nn
      - 1 / 10 ^ 8 * length
  case neg =>
    have hF : getMonotonicPoloidalDistanceFunc Real.sqrt Real.log length N Nn
        d_lower d_upper l1 = monotonicConvex d_lower d_upper length N Nn := by
      unfold getMonotonicPoloidalDistanceFunc
      rw [if_neg hbr]
    rw [hF]
    refine ⟨?_, ?_, ?_, ?_, ?_, ?_, fun _ => rfl⟩
    · simp only [monotonicConvex]
      rw [if_neg (lt_irrefl 0), if_neg (not_lt.mpr hN.le)]
      exact convexMid_zero d_lower d_upper length N Nn
    · simp only [monotonicConvex]
      rw [if_neg (not_lt.mpr hN.le), if_neg (lt_irrefl N)]
      exact convexMid_at_N d_lower d_upper length N Nn hN.ne' hNn.ne'
    · exact monotonicConvex_hasDerivAt_zero d_lower d_upper length N Nn hN
        hNn.ne'
    · exact monotonicConvex_hasDerivAt_N d_lower d_upper length N Nn hN hNn.ne'
    · intro i hi
      simp only [monotonicConvex]
      rw [if_pos hi]
    · intro i hi
      simp only [monotonicConvex]
      rw [if_neg (not_lt.mpr (le_of_lt (lt_trans hN hi))), if_pos hi]
  case pos =>
    obtain ⟨hl1, hcon⟩ := hroot hbr
    have hF : getMonotonicPoloidalDistanceFunc Real.sqrt Real.log length N Nn
        d_lower d_upper l1
        = monotonicConcave Real.sqrt Real.log d_lower d_upper length N Nn l1 := by
      unfold getMonotonicPoloidalDistanceFunc
      rw [if_pos hbr]
    rw [hF]
    obtain ⟨hl2pos, hl2id⟩ := concaveQ_pos_identity d_lower N Nn l1 hdl hN hNn hl1
    obtain ⟨hr2pos, hr2id⟩ := concaveQ_pos_identity d_upper N Nn l1 hdu hN hNn hl1
    have hxpos : (0 : ℝ) < N / Nn := by positivity
    have hdivl := concave_div_identity d_lower
      (concaveQ Real.sqrt d_lower N Nn l1) (N / Nn) l1 hl2pos hxpos hl2id
    have hdivr := concave_div_identity d_upper
      (concaveQ Real.sqrt d_upper N Nn l1) (N / Nn) l1 hr2pos hxpos hr2id
    simp only [concaveConstraint] at hcon
    have hmidC : ∀ y : ℝ, 0 ≤ y → y ≤ N →
        monotonicConcave Real.sqrt Real.log d_lower d_upper length N Nn l1 y
          = concaveMid Real.log l1 (concaveQ Real.sqrt d_lower N Nn l1)
              (l1 / concaveQ Real.sqrt d_lower N Nn l1 - d_lower)
              (concaveQ Real.sqrt d_upper N Nn l1)
              (l1 / concaveQ Real.sqrt d_upper N Nn l1 - d_upper) N Nn y := by
      intro y hy0 hyN
      simp only [monotonicConcave]
      rw [if_neg (not_lt.mpr hy0), if_neg (not_lt.mpr hyN)]
    have hlowC : ∀ y : ℝ, y < 0 →
        monotonicConcave Real.sqrt Real.log d_lower d_upper length N Nn l1 y
          = d_lower * y / Nn := by
      intro y hy
      simp only [monotonicConcave]
      rw [if_pos hy]
    have hhighC : ∀ y : ℝ, N < y →
        monotonicConcave Real.sqrt Real.log d_lower d_upper length N Nn l1 y
          = length + d_upper * (y - N) / Nn := by
      intro y hy
      simp only [monotonicConcave]
      rw [if_neg (not_lt.mpr (le_of_lt (lt_trans hN hy))), if_pos hy]
    have hatN : concaveMid Real.log l1 (concaveQ Real.sqrt d_lower N Nn l1)
        (l1 / concaveQ Real.sqrt d_lower N Nn l1 - d_lower)
        (concaveQ Real.sqrt d_upper N Nn l1)
        (l1 / concaveQ Real.sqrt d_upper N Nn l1 - d_upper) N Nn N = length :=
      concaveMid_at_N l1 _ _ _ _ length N Nn hl2pos hr2pos hN hNn hcon
    refine ⟨?_, ?_, ?_, ?_, ?_, ?_, ?_⟩
    · rw [hmidC 0 le_rfl hN.le]
      exact concaveMid_zero l1 _ _ _ _ N Nn
    · rw [hmidC N hN.le le_rfl]
      exact hatN
    · have hd0 := concaveMid_hasDerivAt_zero d_lower d_upper l1
        (concaveQ Real.sqrt d_lower N Nn l1)
        (concaveQ Real.sqrt d_upper N Nn l1) N Nn hl2pos hr2pos hN hNn hdivr
      exact hasDerivAt_of_piecewise
        (monotonicConcave Real.sqrt Real.log d_lower d_upper length N Nn l1)
        (fun i => d_lower * i / Nn)
        (concaveMid Real.log l1 (concaveQ Real.sqrt d_lower N Nn l1)
          (l1 / concaveQ Real.sqrt d_lower N Nn l1 - d_lower)
          (concaveQ Real.sqrt d_upper N Nn l1)
          (l1 / concaveQ Real.sqrt d_upper N Nn l1 - d_upper) N Nn)
        0 (d_lower / Nn)
        (Filter.eventually_of_mem self_mem_nhdsWithin (fun y hy => hlowC y hy))
        (Filter.eventually_of_mem (Ioo_mem_nhdsWithin_Ioi ⟨le_refl 0, hN⟩)
          (fun y hy => hmidC y hy.1.le hy.2.le))
        (by rw [hmidC 0 le_rfl hN.le, concaveMid_zero]; norm_num)
        (by rw [concaveMid_zero]; norm_num)
        (lowExt_hasDerivAt d_lower Nn 0) hd0
    · have hdN := concaveMid_hasDerivAt_at_N d_lower d_upper l1
        (concaveQ Real.sqrt d_lower N Nn l1)
        (concaveQ Real.sqrt d_upper N Nn l1) N Nn hl2pos hr2pos hN hNn hdivl
      exact hasDerivAt_of_piecewise
        (monotonicConcave Real.sqrt Real.log d_lower d_upper length N Nn l1)
        (concaveMid Real.log l1 (concaveQ Real.sqrt d_lower N Nn l1)
          (l1 / concaveQ Real.sqrt d_lower N Nn l1 - d_lower)
          (concaveQ Real.sqrt d_upper N Nn l1)
          (l1 / concaveQ Real.sqrt d_upper N Nn l1 - d_upper) N Nn)
        (fun i => length + d_upper * (i - N) / Nn) N (d_upper / Nn)
        (Filter.eventually_of_mem (Ioo_mem_nhdsWithin_Iio ⟨hN, le_refl N⟩)
          (fun y hy => hmidC y hy.1.le hy.2.le))
        (Filter.eventually_of_mem self_mem_nhdsWithin (fun y hy => hhighC y hy))
        (by rw [hmidC N hN.le le_rfl])
        (by rw [hatN]; ring)
        hdN (highExt_hasDerivAt length d_upper N Nn N)
    · intro i hi
      exact hlowC i hi
    · intro i hi
      exact hhighC i hi
    · intro hL
      exfalso
      have hL2 : 1 / 2 * (d_upper + d_lower) * N / Nn ≤ length := by
        rw [add_comm d_upper d_lower]
        exact hL
      have heps : 0 < (1 / 10 ^ 8 : ℝ) * length := by positivity
      linarith

/-- Witness for the C3 theorem at the S3 scenario values (N = N_norm = 16,
length = 10, d_lower = 0.1, d_upper = 2, l1 = 1): all hypotheses hold (the
concave branch is not selected, so the root condition is vacuous) and the
endpoint, derivative and extension conclusions hold there. -/
theorem getMonotonicPoloidalDistanceFunc_endpoints_witness :
    ((0 : ℝ) < 1 / 10 ∧ (0 : ℝ) < 2 ∧ (0 : ℝ) < 16 ∧ (0 : ℝ) < 10 ∧
      ¬((10 : ℝ) < 1 / 2 * (2 + 1 / 10) * 16 / 16 - 1 / 10 ^ 8 * 10)) ∧
    (getMonotonicPoloidalDistanceFunc Real.sqrt Real.log 10 16 16 (1 / 10) 2 1
        0 = 0 ∧
      getMonotonicPoloidalDistanceFunc Real.sqrt Real.log 10 16 16 (1 / 10) 2 1
        16 = 10 ∧
      HasDerivAt (getMonotonicPoloidalDistanceFunc Real.sqrt Real.log 10 16 16
        (1 / 10) 2 1) (1 / 10 / 16) 0 ∧
      HasDerivAt (getMonotonicPoloidalDistanceFunc Real.sqrt Real.log 10 16 16
        (1 / 10) 2 1) (2 / 16) 16 ∧
      (∀ i : ℝ, i < 0 →
        getMonotonicPoloidalDistanceFunc Real.sqrt Real.log 10 16 16 (1 / 10) 2
          1 i = 1 / 10 * i / 16) ∧
      (∀ i : ℝ, (16 : ℝ) < i →
        getMonotonicPoloidalDistanceFunc Real.sqrt Real.log 10 16 16 (1 / 10) 2
          1 i = 10 + 2 * (i - 16) / 16) ∧
      (1 / 2 * ((1 / 10 : ℝ) + 2) * 16 / 16 ≤ 10 →
        getMonotonicPoloidalDistanceFunc Real.sqrt Real.log 10 16 16 (1 / 10) 2
          1 = monotonicConvex ((1 : ℝ) / 10) 2 10 16 16)) :=
  ⟨⟨by norm_num, by norm_num, by norm_num, by norm_num, by norm_num⟩,
    getMonotonicPoloidalDistanceFunc_endpoints (1 / 10) 2 10 16 16 1
      (by norm_num) (by norm_num) (by norm_num) (by norm_num) (by norm_num)
      (fun h => absurd h (by norm_num))⟩

end Hypnotoad
